import Mathlib

/-!
Verification development for the transcript segmentation engine of this
repository (`Transcriber.process_transcript_data` and
`Transcriber.clean_chinese_text` in `src/python/aws/latios_transcribe.py`;
`WhisperTranscriber.clean_chinese_text` in
`src/python/lib/whisper_transcriber.py` is the same pipeline).

The Python code is shallowly embedded: timestamps are modelled as exact
rationals (the code parses decimal-second strings with `float`), Python
`int()` truncation is `pyInt`, fallible steps live in `Except String`, and
the character-level regex pipeline of `clean_chinese_text` is implemented
by structurally recursive scanners over `List Char` that realize exactly
the substitutions the code performs.
-/

/-! ## Character classes used by the `clean_chinese_text` regexes -/

/-- The whitespace class of Python's `re` module (`\s` on `str` patterns):
ASCII whitespace, the C1/Unicode whitespace code points. -/
def pyIsSpace (c : Char) : Bool :=
  let n := c.toNat
  n == 32 || (9 ≤ n && n ≤ 13) || (28 ≤ n && n ≤ 31) || n == 0x85 ||
    n == 0xa0 || n == 0x1680 || (0x2000 ≤ n && n ≤ 0x200a) ||
    n == 0x2028 || n == 0x2029 || n == 0x202f || n == 0x205f || n == 0x3000

/-- CJK ideograph range `[一-鿿]` used by the despacing regex. -/
def isCJK (c : Char) : Bool :=
  0x4e00 ≤ c.toNat && c.toNat ≤ 0x9fff

/-- The punctuation class `[，。！？；：,\.!?;:]` of the spacing regexes. -/
def isPunctMark (c : Char) : Bool :=
  c == '，' || c == '。' || c == '！' || c == '？' || c == '；' || c == '：' ||
    c == ',' || c == '.' || c == '!' || c == '?' || c == ';' || c == ':'

/-! ## Unicode-escape decoding (`if '\\u' in text: text = json.loads(f'"{text}"') ...`) -/

/-- Whether the text contains the two-character substring backslash-`u`
(Python's `'\u' in text` test written as `'\\u' in text`). -/
def hasBackslashU : List Char → Bool
  | [] => false
  | [_] => false
  | a :: b :: t => (a == '\\' && b == 'u') || hasBackslashU (b :: t)

/-- Numeric value of a hexadecimal digit. -/
def hexDigit? (c : Char) : Option ℕ :=
  let n := c.toNat
  if 48 ≤ n && n ≤ 57 then some (n - 48)
  else if 97 ≤ n && n ≤ 102 then some (n - 87)
  else if 65 ≤ n && n ≤ 70 then some (n - 55)
  else none

/-- Decoding of a JSON string body, as performed by
`json.loads(f'"{text}"')`: ordinary characters stand for themselves, the
escapes `\" \\ \/ \b \f \n \r \t \uXXXX` are decoded, and decoding fails
(`none`, Python raises) on a stray quote, an invalid escape, or a raw
control character.  Surrogate escapes are treated as failure (they do not
occur in any input considered below). -/
def jsonUnescape : List Char → Option (List Char)
  | [] => some []
  | '\\' :: t =>
    match t with
    | '"' :: r => (jsonUnescape r).map (fun x => '"' :: x)
    | '\\' :: r => (jsonUnescape r).map (fun x => '\\' :: x)
    | '/' :: r => (jsonUnescape r).map (fun x => '/' :: x)
    | 'b' :: r => (jsonUnescape r).map (fun x => Char.ofNat 8 :: x)
    | 'f' :: r => (jsonUnescape r).map (fun x => Char.ofNat 12 :: x)
    | 'n' :: r => (jsonUnescape r).map (fun x => '\n' :: x)
    | 'r' :: r => (jsonUnescape r).map (fun x => Char.ofNat 13 :: x)
    | 't' :: r => (jsonUnescape r).map (fun x => '\t' :: x)
    | 'u' :: a :: b :: c :: d :: r =>
      match hexDigit? a, hexDigit? b, hexDigit? c, hexDigit? d with
      | some ha, some hb, some hc, some hd =>
        let code := ((ha * 16 + hb) * 16 + hc) * 16 + hd
        if 0xd800 ≤ code && code ≤ 0xdfff then none
        else (jsonUnescape r).map (fun x => Char.ofNat code :: x)
      | _, _, _, _ => none
    | _ => none
  | '"' :: _ => none
  | c :: t => if c.toNat < 32 then none else (jsonUnescape t).map (fun x => c :: x)

/-- The escape-decoding phase of `clean_chinese_text`.  The code first
tries `json.loads(f'"{text}"')`; on failure it falls through a chain of
`codecs`/`encode`/`decode` attempts whose common observable outcome is to
leave the text unchanged — that fallback chain is modelled by returning
the input unchanged.  No theorem below depends on the fallback branch:
every input considered either contains no backslash-`u` sequence (so the
phase is skipped entirely) or decodes successfully via the JSON path. -/
def pyUnicodeUnescape (l : List Char) : List Char :=
  (jsonUnescape l).getD l

/-! ## The four regex substitutions and the strip

Each `re.sub` is realized as a single left-to-right structurally
recursive scanner; the correspondence to the regex is noted on each.  -/

/-- Scanner for `re.sub(r'(?<=[一-鿿])\s+(?=[一-鿿])', '', text)`:
a maximal whitespace run is deleted exactly when the character immediately
before it is a CJK ideograph and so is the character immediately after it.
`prevCJK` records whether the character before the pending run is CJK,
`pend` is the pending (not yet adjudicated) whitespace run. -/
def despaceCJKGo (prevCJK : Bool) (pend : List Char) : List Char → List Char
  | [] => pend
  | c :: t =>
    if pyIsSpace c then despaceCJKGo prevCJK (pend ++ [c]) t
    else if prevCJK && isCJK c && !pend.isEmpty then c :: despaceCJKGo (isCJK c) [] t
    else pend ++ c :: despaceCJKGo (isCJK c) [] t

/-- First spacing substitution: drop whitespace strictly between two CJK
ideographs. -/
def despaceCJK (l : List Char) : List Char :=
  despaceCJKGo false [] l

/-- Scanner for `re.sub(r'\s+([，。！？；：,\.!?;:])', r'\1', text)`: a
maximal whitespace run immediately followed by a punctuation mark is
deleted. -/
def dropSpaceBeforePunctGo (pend : List Char) : List Char → List Char
  | [] => pend
  | c :: t =>
    if pyIsSpace c then dropSpaceBeforePunctGo (pend ++ [c]) t
    else if isPunctMark c then c :: dropSpaceBeforePunctGo [] t
    else pend ++ c :: dropSpaceBeforePunctGo [] t

/-- Second spacing substitution: drop whitespace before punctuation. -/
def dropSpaceBeforePunct (l : List Char) : List Char :=
  dropSpaceBeforePunctGo [] l

/-- Scanner state for the third substitution: `normal` (previous character
neither punctuation nor part of an interesting run), `afterPunct` (previous
character was a punctuation mark), `inRun` (inside a whitespace run that
follows a punctuation mark and whose single replacement space was already
emitted). -/
inductive SqState where
  | normal : SqState
  | afterPunct : SqState
  | inRun : SqState
deriving DecidableEq

/-- Scanner for `re.sub(r'([，。！？；：,\.!?;:])\s+', r'\1 ', text)`: a
whitespace run immediately following a punctuation mark is replaced by one
single space. -/
def squeezeAfterPunctGo (st : SqState) : List Char → List Char
  | [] => []
  | c :: t =>
    match st with
    | SqState.normal =>
      c :: squeezeAfterPunctGo (if isPunctMark c then SqState.afterPunct else SqState.normal) t
    | SqState.afterPunct =>
      if pyIsSpace c then ' ' :: squeezeAfterPunctGo SqState.inRun t
      else c :: squeezeAfterPunctGo (if isPunctMark c then SqState.afterPunct else SqState.normal) t
    | SqState.inRun =>
      if pyIsSpace c then squeezeAfterPunctGo SqState.inRun t
      else c :: squeezeAfterPunctGo (if isPunctMark c then SqState.afterPunct else SqState.normal) t

/-- Third spacing substitution: collapse whitespace after punctuation to a
single space. -/
def squeezeAfterPunct (l : List Char) : List Char :=
  squeezeAfterPunctGo SqState.normal l

/-- Python `str.strip()`: remove leading and trailing whitespace. -/
def pyStrip (l : List Char) : List Char :=
  ((l.dropWhile pyIsSpace).reverse.dropWhile pyIsSpace).reverse

/-- Scanner for `re.sub(r'\s+', ' ', text)`: every maximal whitespace run
is replaced by a single space; `inRun` tells whether the replacement space
of the current run has already been emitted. -/
def collapseSpaceGo (inRun : Bool) : List Char → List Char
  | [] => []
  | c :: t =>
    if pyIsSpace c then
      if inRun then collapseSpaceGo true t else ' ' :: collapseSpaceGo true t
    else c :: collapseSpaceGo false t

/-- Fourth spacing substitution: collapse every whitespace run to a single
space. -/
def collapseSpace (l : List Char) : List Char :=
  collapseSpaceGo false l

/-- The spacing pipeline of `clean_chinese_text` (everything after the
escape decoding), in the code's order. -/
def cleanSpacing (l : List Char) : List Char :=
  collapseSpace (pyStrip (squeezeAfterPunct (dropSpaceBeforePunct (despaceCJK l))))

/-- Model of `Transcriber.clean_chinese_text` /
`WhisperTranscriber.clean_chinese_text`: optional unicode-escape decoding
(only when a literal backslash-`u` is present), then the four regex
substitutions and the strip, in order. -/
def clean_chinese_text (s : String) : String :=
  let t := if hasBackslashU s.data then pyUnicodeUnescape s.data else s.data
  String.mk (cleanSpacing t)

example : clean_chinese_text "你好 ， 世界 。" = "你好， 世界。" := by decide
example : clean_chinese_text "\\u0041" = "A" := by decide
example : clean_chinese_text "\\\\u0041" = "\\u0041" := by decide

/-! ## Spacing normal form

The idempotence argument for the spacing pipeline (claim C7) goes through
a normal form: after one pass every whitespace character is a single
isolated blank, none at either edge, none immediately before a
punctuation mark and none strictly between two CJK ideographs.  Each
scanner of the pipeline preserves the parts of the normal form already
established and acts as the identity on lists in normal form. -/

/-! Normal form of the spacing pipeline -/

def firstNonWs : List Char → Option Char
  | [] => none
  | c :: t => if pyIsSpace c then firstNonWs t else some c

/-- The list starts with a whitespace run that is immediately followed by
a CJK ideograph. -/
def wsRunThenCJK : List Char → Prop
  | [] => False
  | c :: t =>
    pyIsSpace c = true ∧
      (match firstNonWs t with
       | some d => isCJK d = true
       | none => False)

/-- No CJK ideograph is followed by a whitespace run that ends right
before another CJK ideograph. -/
def noCRC : List Char → Prop
  | [] => True
  | c :: t => (isCJK c = true → ¬ wsRunThenCJK t) ∧ noCRC t

def noWsPunct (l : List Char) : Prop :=
  List.Chain' (fun a b => ¬(pyIsSpace a = true ∧ isPunctMark b = true)) l

def noAdjWs (l : List Char) : Prop :=
  List.Chain' (fun a b => ¬(pyIsSpace a = true ∧ pyIsSpace b = true)) l

def allBlank (l : List Char) : Prop :=
  ∀ c ∈ l, pyIsSpace c = true → c = ' '

def noEdgeWs (l : List Char) : Prop :=
  (∀ c, l.head? = some c → pyIsSpace c = false) ∧
  (∀ c, l.getLast? = some c → pyIsSpace c = false)

/-- Normal form: all whitespace is a single isolated blank, none at the
edges, none before punctuation, none between two CJK ideographs. -/
def spacingNF (l : List Char) : Prop :=
  allBlank l ∧ noAdjWs l ∧ noEdgeWs l ∧ noWsPunct l ∧ noCRC l

/-! ## Data model of `process_transcript_data`

An input item (`transcript_data['results']['items'][i]`) carries a type
tag, two timestamp fields, the contents of its `alternatives` entries and
an optional `speaker_label`.  A timestamp field is `absent` (key missing,
`item['start_time']` would raise `KeyError`), `bad` (present but not
parseable, `float(...)` would raise `ValueError`) or an exact rational
value. -/

inductive TimeVal where
  | absent : TimeVal
  | bad : TimeVal
  | val : ℚ → TimeVal
deriving DecidableEq

/-- One raw ASR item.  `alternatives` lists the `content` strings of the
item's `alternatives` array (a missing key and an empty array are both
modelled as `[]`, which is exactly how the code's
`'alternatives' in item and item['alternatives']` test treats them). -/
structure Item where
  is_punctuation : Bool
  start_time : TimeVal
  end_time : TimeVal
  alternatives : List String
  speaker_label : Option String
deriving DecidableEq

/-- `float(field)` on a required timestamp field: raises on a missing or
unparsable value. -/
def pyFloat : TimeVal → Except String ℚ
  | TimeVal.absent => Except.error "KeyError: missing timestamp"
  | TimeVal.bad => Except.error "ValueError: could not convert string to float"
  | TimeVal.val q => Except.ok q

/-- Python `int()` on a real value: truncation toward zero. -/
def pyInt (q : ℚ) : ℤ := if 0 ≤ q then ⌊q⌋ else ⌈q⌉

/-- One output segment (pydantic model `TranscriptionSegment`).
`FormattedTime` (a pure rendering of `StartMs` as "HH:MM:SS") is not
modelled; instead the segment carries two ghost fields used only by the
specifications below: `words` is the `current_sentence` list from which
`FinalSentence` was joined, and `rawSpeaker` is the raw `current_speaker`
at emission time. -/
structure TranscriptionSegment where
  StartMs : ℤ
  EndMs : ℤ
  FinalSentence : String
  SpeakerId : String
  words : List String
  rawSpeaker : Option String
deriving DecidableEq

/-- One output minute bucket (pydantic model `MinuteSegment`). -/
structure MinuteSegment where
  minute : ℤ
  segments : List TranscriptionSegment
deriving DecidableEq

/-- The mutable locals of `process_transcript_data` (lines 308–315), plus
the loop-carried `start_time` variable of line 325 (the start time of the
most recently processed non-punctuation item). -/
structure ScanState where
  segments : List MinuteSegment
  current_minute : ℤ
  minute_segments : List TranscriptionSegment
  speaker_count : ℕ
  speaker_map : List (String × String)
  current_sentence : List String
  sentence_start_time : Option ℚ
  current_speaker : Option String
  start_time : Option ℚ
deriving DecidableEq

/-- Initial state (lines 308–315): `current_minute = -1`,
`speaker_count = 1`, everything else empty. -/
def initState : ScanState :=
  ⟨[], -1, [], 1, [], [], none, none, none⟩

/-- Lookup in the speaker map (Python `dict` lookup; insertion order is
kept by modelling the dict as an association list with unique keys). -/
def mapLookup : List (String × String) → String → Option String
  | [], _ => none
  | (k, v) :: t, key => if k = key then some v else mapLookup t key

/-- Lines 328–333: when no sentence is open, open one at `st` and resolve
the display label of `spk`, assigning a fresh `"Speaker {speaker_count}"`
if `spk` is not yet in `speaker_map`. -/
def openSentence (s : ScanState) (st : ℚ) (spk : String) : ScanState :=
  if s.sentence_start_time = none then
    { s with
      sentence_start_time := some st
      speaker_map :=
        if (mapLookup s.speaker_map spk).isNone then
          s.speaker_map ++ [(spk, "Speaker " ++ toString s.speaker_count)]
        else s.speaker_map
      speaker_count :=
        if (mapLookup s.speaker_map spk).isNone then s.speaker_count + 1
        else s.speaker_count
      current_speaker := some spk }
  else s

/-- Line 337: append a word to the current sentence. -/
def appendWord (s : ScanState) (w : String) : ScanState :=
  { s with current_sentence := s.current_sentence ++ [w] }

/-- Line 343: `current_sentence[-1] += punct`. -/
def mergePunct (s : ScanState) (p : String) : ScanState :=
  { s with current_sentence :=
      s.current_sentence.dropLast ++ [s.current_sentence.getLastD "" ++ p] }

/-- Lines 324–344: processing of the current item `it` before the boundary
test.  A non-punctuation item has its `start_time` parsed (possibly
raising), may open a sentence, appends its first alternative (if any) and
merges an immediately following punctuation item into the last word,
consuming it from `rest`.  Returns the updated state and the remaining
item list (`items[i+1:]` after the possible lookahead consume). -/
def wordPhase (s : ScanState) (it : Item) (rest : List Item) :
    Except String (ScanState × List Item) :=
  if it.is_punctuation then Except.ok (s, rest)
  else
    match pyFloat it.start_time with
    | Except.error e => Except.error e
    | Except.ok st =>
      let spk := it.speaker_label.getD "spk_0"
      let s1 := { openSentence s st spk with start_time := some st }
      match it.alternatives with
      | [] => Except.ok (s1, rest)
      | w :: _ =>
        let s2 := appendWord s1 w
        match rest with
        | [] => Except.ok (s2, rest)
        | nx :: rest2 =>
          if nx.is_punctuation then
            match nx.alternatives with
            | [] => Except.error "IndexError: list index out of range"
            | p :: _ => Except.ok (mergePunct s2 p, rest2)
          else Except.ok (s2, rest)

/-- Python `word.endswith(m)` for a single-character marker `m`: the last
character of the word equals `m`. -/
def pyEndsWith (w : String) (m : Char) : Bool :=
  w.data.getLast? == some m

/-- Line 350: the last accumulated word ends with '.', '!' or '?'. -/
def isSentenceEnd (w : String) : Bool :=
  pyEndsWith w '.' || pyEndsWith w '!' || pyEndsWith w '?'

/-- Lines 346–364: the boundary test, evaluated with `remaining` =
`items[i+1:]`.  With an empty `current_sentence` no boundary fires; at the
end of the stream a boundary always fires; a punctuation successor blocks
the test; otherwise the three disjuncts of lines 358–362 are evaluated
(parsing the successor's `start_time`, possibly raising). -/
def should_create_segment (s : ScanState) (remaining : List Item) :
    Except String Bool :=
  match s.current_sentence.getLast? with
  | none => Except.ok false
  | some last_word =>
    let is_sentence_end := isSentenceEnd last_word
    match remaining with
    | [] => Except.ok true
    | next_item :: _ =>
      if next_item.is_punctuation then Except.ok false
      else
        match pyFloat next_item.start_time with
        | Except.error e => Except.error e
        | Except.ok next_time =>
          let next_speaker := next_item.speaker_label.getD "spk_0"
          Except.ok
            ((is_sentence_end && decide (next_time - s.start_time.getD 0 > 4) &&
                decide (20 ≤ s.current_sentence.length)) ||
             (decide (some next_speaker ≠ s.current_speaker) && is_sentence_end &&
                decide (15 ≤ s.current_sentence.length)) ||
             decide (150 ≤ s.current_sentence.length))

/-- Lines 375–380 and 409–414: minute bucketing of a finalized segment
whose minute index is `cim`.  If an open bucket for a different minute
exists (and a bucket is only "open" when a segment was emitted before,
`current_minute != -1`), it is flushed into the output when non-empty. -/
def pushBucket (s : ScanState) (cim : ℤ) (seg : TranscriptionSegment) : ScanState :=
  let s1 :=
    if s.current_minute ≠ -1 ∧ s.current_minute ≠ cim then
      if s.minute_segments.isEmpty then s
      else
        { s with
          segments := s.segments ++ [⟨s.current_minute, s.minute_segments⟩]
          minute_segments := [] }
    else s
  { s1 with current_minute := cim, minute_segments := s1.minute_segments ++ [seg] }

/-- Line 385: `speaker_map.get(current_speaker, "Speaker 1")` (a `None`
key is simply not found). -/
def speakerIdOf (s : ScanState) : String :=
  match s.current_speaker with
  | none => "Speaker 1"
  | some cs => (mapLookup s.speaker_map cs).getD "Speaker 1"

/-- `float(item.get('end_time', fallback))`: an absent field falls back,
an unparsable one raises. -/
def endTimeValue (tv : TimeVal) (fallback : ℚ) : Except String ℚ :=
  match tv with
  | TimeVal.absent => Except.ok fallback
  | TimeVal.bad => Except.error "ValueError: could not convert string to float"
  | TimeVal.val q => Except.ok q

/-- The `TranscriptionSegment` built at an emission site (lines 371–372,
381–387 and 405–406, 415–421 share this shape): truncated milliseconds,
the joined (and, for Chinese, cleaned) sentence, the resolved display
label, plus the two ghost fields. -/
def mkSegment (is_chinese : Bool) (s : ScanState) (et : ℚ) : TranscriptionSegment :=
  ⟨pyInt (s.sentence_start_time.getD 0 * 1000), pyInt (et * 1000),
    (if is_chinese then
      clean_chinese_text (String.intercalate " " s.current_sentence)
    else String.intercalate " " s.current_sentence),
    speakerIdOf s, s.current_sentence, s.current_speaker⟩

/-- Lines 366–395: segment emission at the current item `it`.  The
sentence text is joined (and cleaned when Chinese), `start_ms` truncates
`sentence_start_time * 1000`, `end_ms` truncates the current item's
`end_time` (falling back to the loop's `start_time` variable), the segment
is bucketed by `int(sentence_start_time / 60)`, and the next sentence is
reopened from `items[i+1]` when that exists and is not punctuation,
otherwise the open-sentence state is cleared. -/
def create_segment (is_chinese : Bool) (s : ScanState) (it : Item)
    (remaining : List Item) : Except String ScanState :=
  match endTimeValue it.end_time (s.start_time.getD 0) with
  | Except.error e => Except.error e
  | Except.ok et =>
    let cim := pyInt (s.sentence_start_time.getD 0 / 60)
    let s1 := pushBucket s cim (mkSegment is_chinese s et)
    let s2 := { s1 with current_sentence := ([] : List String) }
    match remaining with
    | [] => Except.ok { s2 with sentence_start_time := none, current_speaker := none }
    | nx :: _ =>
      if nx.is_punctuation then
        Except.ok { s2 with sentence_start_time := none, current_speaker := none }
      else
        match pyFloat nx.start_time with
        | Except.error e => Except.error e
        | Except.ok t =>
          Except.ok
            { s2 with
              sentence_start_time := some t
              current_speaker := some (nx.speaker_label.getD "spk_0") }

/-- One iteration of the `while i < len(items)` loop for current item `it`
with `rest = items[i+1:]`; returns the state and the remaining items for
the next iteration. -/
def stepFn (is_chinese : Bool) (s : ScanState) (it : Item) (rest : List Item) :
    Except String (ScanState × List Item) :=
  match wordPhase s it rest with
  | Except.error e => Except.error e
  | Except.ok (s1, remaining) =>
    match should_create_segment s1 remaining with
    | Except.error e => Except.error e
    | Except.ok should =>
      if should && !s1.current_sentence.isEmpty then
        match create_segment is_chinese s1 it remaining with
        | Except.error e => Except.error e
        | Except.ok s2 => Except.ok (s2, remaining)
      else Except.ok (s1, remaining)

/-- Lines 423–424: emit the final open bucket if non-empty. -/
def flushBuckets (s : ScanState) : List MinuteSegment :=
  if s.minute_segments.isEmpty then s.segments
  else s.segments ++ [⟨s.current_minute, s.minute_segments⟩]

/-- The `end_time` field of `items[-1]`; `lastItem = none` cannot occur
with a non-empty residual sentence and is treated as an absent field. -/
def lastEndTime (lastItem : Option Item) : TimeVal :=
  match lastItem with
  | some li => li.end_time
  | none => TimeVal.absent

/-- Lines 399–426: after the loop, flush any residual sentence (its
`end_ms` consults `items[-1]`, falling back to `sentence_start_time`) and
the final open bucket. -/
def finalize (is_chinese : Bool) (lastItem : Option Item) (s : ScanState) :
    Except String (List MinuteSegment) :=
  if s.current_sentence.isEmpty then Except.ok (flushBuckets s)
  else
    match endTimeValue (lastEndTime lastItem) (s.sentence_start_time.getD 0) with
    | Except.error e => Except.error e
    | Except.ok et =>
      let cim := pyInt (s.sentence_start_time.getD 0 / 60)
      Except.ok (flushBuckets (pushBucket s cim (mkSegment is_chinese s et)))

/-- The scan loop, fueled for structural recursion; `process_transcript_data`
supplies `items.length` fuel, which the adequacy lemma below shows is
enough (each iteration consumes at least one item). -/
def scanAux (is_chinese : Bool) (lastItem : Option Item) :
    ℕ → ScanState → List Item → Except String (List MinuteSegment)
  | _, s, [] => finalize is_chinese lastItem s
  | 0, _, _ :: _ => Except.error "fuel exhausted"
  | fuel+1, s, it :: rest =>
    match stepFn is_chinese s it rest with
    | Except.error e => Except.error e
    | Except.ok (s1, remaining) => scanAux is_chinese lastItem fuel s1 remaining

/-- Model of `Transcriber.process_transcript_data` (lines 307–430) on the
materialized item array `transcript_data['results']['items']`.  An
uncaught Python exception (`KeyError`/`ValueError`/`IndexError` from the
scan) is an `Except.error`: the `except` clause of lines 428–430 re-raises
it as an `HTTPException`, so no segment list is returned for such inputs. -/
def process_transcript_data (is_chinese : Bool) (items : List Item) :
    Except String (List MinuteSegment) :=
  scanAux is_chinese items.getLast? items.length initState items

/-! ## Input builders for concrete scenarios -/

/-- A pronunciation item with parseable start time, no `end_time`, one
alternative and no `speaker_label`. -/
def word (t : ℚ) (w : String) : Item :=
  ⟨false, TimeVal.val t, TimeVal.absent, [w], none⟩

/-- A pronunciation item that also carries a `speaker_label`. -/
def wordSpk (t : ℚ) (w spk : String) : Item :=
  ⟨false, TimeVal.val t, TimeVal.absent, [w], some spk⟩

/-- A pronunciation item with both timestamps parseable. -/
def wordTimed (t e : ℚ) (w : String) : Item :=
  ⟨false, TimeVal.val t, TimeVal.val e, [w], none⟩

/-- A punctuation item (AWS punctuation items carry no timestamps). -/
def punctItem (p : String) : Item :=
  ⟨true, TimeVal.absent, TimeVal.absent, [p], none⟩

/-! ## C6 — the Chinese scenario

Claim C6 asserts that cleaning `"你好 ， 世界 。"` yields `"你好，世界。"`.
The third substitution of the pipeline deliberately keeps one space after a
punctuation mark (`re.sub(r'([，。！？；：,\.!?;:])\s+', r'\1 ', text)`, the
comment on line 178 says the space is kept for sentence separation), so the
space after the comma survives: the actual result is `"你好， 世界。"`. -/

/-- C6 counterexample: on the concrete input of the claim the normalizer
does not return `"你好，世界。"`. -/
theorem c6_counterexample : clean_chinese_text "你好 ， 世界 。" ≠ "你好，世界。" := by
  decide

/-- C6 (amended): applying the Chinese text normalizer to
`"你好 ， 世界 。"` yields exactly `"你好， 世界。"` — the whitespace
between the ideographs and before the punctuation marks is removed, but
one single space after the comma is kept by the punctuation-spacing rule. -/
theorem c6_amended : clean_chinese_text "你好 ， 世界 。" = "你好， 世界。" := by
  decide

/-! ## C3 — start/end milliseconds

Claim C3 asserts `startMs = round(sentenceStartTimeSec * 1000)` and
`endMs = round(endTimeSec * 1000)` with fallback `sentenceStartTimeSec`.
The code (lines 371–372) uses Python `int()`, which truncates toward zero
rather than rounding, and its mid-stream fallback is the loop's
`start_time` variable (the most recent Word token's start), not
`sentence_start_time` (that fallback is used on line 406 only).  The
amended theorem `c3_amended` and its helper lemmas appear after the C4
suite, whose bucket lemmas they reuse. -/

/-- C3 counterexample, both corrections.  (1) Rounding: a single Word
token `"x."` with `start_time = 0` and `end_time = 1.9996` emits
`EndMs = 1999` (truncation of `1999.6`), while the claimed
`round(endTimeSec * 1000)` is `2000`.  (2) Fallback: two Word tokens at
seconds `0` and `10`, neither with an `end_time`; the boundary fires at
the second token, whose absent `end_time` falls back to the loop's
`start_time = 10`, so the code emits `EndMs = 10000` — whereas the
claimed fallback `sentenceStartTimeSec = 0` would give
`int(0 * 1000) = 0 ≠ 10000`. -/
theorem c3_counterexample :
    (process_transcript_data false [⟨false, TimeVal.val 0, TimeVal.val (19996/10000), ["x."], none⟩] =
       Except.ok [⟨0, [⟨0, 1999, "x.", "Speaker 1", ["x."], some "spk_0"⟩]⟩] ∧
     round ((19996 : ℚ) / 10000 * 1000) = 2000) ∧
    (process_transcript_data false [word 0 "a", word 10 "b"] =
       Except.ok [⟨0, [⟨0, 10000, "a b", "Speaker 1", ["a", "b"], some "spk_0"⟩]⟩] ∧
     (10000 : ℤ) ≠ pyInt ((0 : ℚ) * 1000)) := by
  refine ⟨⟨?_, ?_⟩, ?_, ?_⟩
  · norm_num +decide [process_transcript_data, scanAux, stepFn, wordPhase,
      should_create_segment, create_segment, mkSegment, pushBucket, speakerIdOf, mapLookup, openSentence,
      appendWord, mergePunct, endTimeValue, finalize, flushBuckets, pyFloat, pyInt,
      initState, isSentenceEnd]
  · norm_num [round_eq]
  · norm_num +decide [word, process_transcript_data, scanAux, stepFn, wordPhase,
      should_create_segment, create_segment, mkSegment, pushBucket, speakerIdOf, mapLookup, openSentence,
      appendWord, mergePunct, endTimeValue, finalize, flushBuckets, pyFloat, pyInt,
      initState, isSentenceEnd]
  · norm_num [pyInt]

/-! ## C2 — boundary rule (a) and its gap

Claim C2 asserts that rule (a)'s gap is
`nextToken.startTimeSec − sentenceStartTimeSec`.  In the code (line 359)
the gap is `next_time - start_time`, where `start_time` (line 325) is the
start time of the *current* Word token, re-assigned on every
non-punctuation item — not the time at which the sentence was opened. -/

/-- C2 counterexample: twenty words at seconds 0,…,18,19, the twentieth
ending in '.', followed by one more word at second 21.  Under the claim
the gap would be 21 − 0 = 21 > 4 with 20 accumulated words ending in '.',
so a boundary would fire and the first emitted sentence would have 20
words.  The code compares 21 − 19 = 2 ≤ 4, fires no boundary, and emits a
single 21-word sentence at the end-of-stream flush. -/
theorem c2_counterexample :
    process_transcript_data false
      ((List.range 19).map (fun k => word k "w") ++ [word 19 "w.", word 21 "w"]) =
    Except.ok [⟨0, [⟨0, 21000,
      String.intercalate " " (List.replicate 19 "w" ++ ["w.", "w"]),
      "Speaker 1", List.replicate 19 "w" ++ ["w.", "w"], some "spk_0"⟩]⟩] := by
  norm_num +decide [word, List.range_succ,
    process_transcript_data, scanAux, stepFn, wordPhase, should_create_segment,
    create_segment, mkSegment, pushBucket, speakerIdOf, mapLookup, openSentence, appendWord, mergePunct,
    endTimeValue, finalize, flushBuckets, pyFloat, pyInt, initState, isSentenceEnd]

/-- C2 (amended): in boundary rule (a), for an open sentence with a next
remaining Word token as lookahead, the gap is the next token's start time
minus the start time of the *current* Word token (the scan's `start_time`
variable), and — absent a speaker change and below the 150-word cap — a
boundary is declared exactly when the last accumulated word ends with '.',
'!' or '?', that gap exceeds 4.0 seconds, and at least 20 words have
accumulated. -/
theorem c2_amended (s : ScanState) (nx : Item) (rest : List Item) (q : ℚ) (w : String)
    (hw : s.current_sentence.getLast? = some w)
    (hp : nx.is_punctuation = false)
    (hq : nx.start_time = TimeVal.val q)
    (hspk : some (nx.speaker_label.getD "spk_0") = s.current_speaker)
    (hlen : s.current_sentence.length < 150) :
    should_create_segment s (nx :: rest) = Except.ok true ↔
      (isSentenceEnd w = true ∧ q - s.start_time.getD 0 > 4 ∧
        20 ≤ s.current_sentence.length) := by
  rw [should_create_segment, hw]
  simp [hp, hq, pyFloat, ← hspk, Nat.not_le.mpr hlen]
  tauto

/-- Witness for `c2_amended`: a concrete 20-word state whose gap from the
current word is 5 seconds, where the boundary does fire. -/
theorem c2_amended_witness :
    should_create_segment
      ⟨[], -1, [], 2, [("spk_0", "Speaker 1")], List.replicate 19 "w" ++ ["w."],
        some 0, some "spk_0", some 19⟩
      [word 24 "w"] = Except.ok true := by
  exact (c2_amended _ _ [] 24 "w." (by decide) (by decide) (by norm_num [word])
      (by decide) (by decide)).mpr ⟨by decide, by norm_num, by decide⟩

/-! ## Structural lemmas about one scan step -/

/-- Shape of the remaining list after the word phase: either unchanged, or
with one punctuation lookahead item consumed. -/
theorem wordPhase_rem {s : ScanState} {it : Item} {rest : List Item}
    {s1 : ScanState} {rem : List Item}
    (h : wordPhase s it rest = Except.ok (s1, rem)) :
    rem = rest ∨ ∃ nx r2, rest = nx :: r2 ∧ nx.is_punctuation = true ∧ rem = r2 := by
  unfold wordPhase at h
  split at h
  · left; simp only [Except.ok.injEq, Prod.mk.injEq] at h; exact h.2.symm
  · split at h
    · cases h
    · split at h
      · left; simp only [Except.ok.injEq, Prod.mk.injEq] at h; exact h.2.symm
      · split at h
        · left; simp only [Except.ok.injEq, Prod.mk.injEq] at h; exact h.2.symm
        · split at h
          · split at h
            · cases h
            · simp only [Except.ok.injEq, Prod.mk.injEq] at h
              exact Or.inr ⟨_, _, rfl, by assumption, h.2.symm⟩
          · left; simp only [Except.ok.injEq, Prod.mk.injEq] at h; exact h.2.symm

/-- Shape of the remaining list after a full scan step. -/
theorem stepFn_rem {c : Bool} {s : ScanState} {it : Item} {rest : List Item}
    {s1 : ScanState} {rem : List Item}
    (h : stepFn c s it rest = Except.ok (s1, rem)) :
    rem = rest ∨ ∃ nx r2, rest = nx :: r2 ∧ nx.is_punctuation = true ∧ rem = r2 := by
  unfold stepFn at h
  split at h
  · cases h
  · rename_i heq
    split at h
    · cases h
    · split at h
      · split at h
        · cases h
        · simp only [Except.ok.injEq, Prod.mk.injEq] at h
          rw [← h.2]
          exact wordPhase_rem heq
      · simp only [Except.ok.injEq, Prod.mk.injEq] at h
        rw [← h.2]
        exact wordPhase_rem heq

/-- A non-punctuation item with a missing or unparsable `start_time` makes
the step fail (`float(item['start_time'])`, line 325). -/
theorem stepFn_error_of_bad {c : Bool} {s : ScanState} {it : Item} {rest : List Item}
    (hp : it.is_punctuation = false)
    (hb : it.start_time = TimeVal.absent ∨ it.start_time = TimeVal.bad) :
    ∃ e, stepFn c s it rest = Except.error e := by
  unfold stepFn wordPhase
  rcases hb with hb | hb <;> simp [hp, hb, pyFloat]

/-- Any Word token with a missing or unparsable `start_time` anywhere in
the remaining input makes the whole scan fail. -/
theorem scanAux_error_of_bad (c : Bool) (last : Option Item) :
    ∀ (fuel : ℕ) (s : ScanState) (l : List Item),
      (∃ it ∈ l, it.is_punctuation = false ∧
        (it.start_time = TimeVal.absent ∨ it.start_time = TimeVal.bad)) →
      ∃ e, scanAux c last fuel s l = Except.error e := by
  intro fuel
  induction fuel with
  | zero =>
    intro s l hbad
    obtain ⟨it, hmem, _⟩ := hbad
    cases l with
    | nil => cases hmem
    | cons a t => exact ⟨"fuel exhausted", rfl⟩
  | succ f ih =>
    intro s l hbad
    obtain ⟨it, hmem, hp, hb⟩ := hbad
    cases l with
    | nil => cases hmem
    | cons a t =>
      rcases hstep : stepFn c s a t with e | ⟨s1, rem⟩
      · exact ⟨e, by simp [scanAux, hstep]⟩
      · rcases List.mem_cons.mp hmem with rfl | hmem2
        · obtain ⟨e, he⟩ := @stepFn_error_of_bad c s _ t hp hb
          rw [he] at hstep
          cases hstep
        · have hrem : it ∈ rem := by
            rcases stepFn_rem hstep with rfl | ⟨nx, r2, heq, hnx, rfl⟩
            · exact hmem2
            · subst heq
              rcases List.mem_cons.mp hmem2 with rfl | h3
              · rw [hp] at hnx; cases hnx
              · exact h3
          obtain ⟨e, he⟩ := ih s1 rem ⟨it, hrem, hp, hb⟩
          exact ⟨e, by simp [scanAux, hstep, he]⟩

/-- The scan has made visible progress: something was emitted or words are
accumulated. -/
def scanProgress (s : ScanState) : Prop :=
  s.segments ≠ [] ∨ s.minute_segments ≠ [] ∨ s.current_sentence ≠ []

/-- Opening a sentence does not touch the output, the open bucket or the
accumulated words. -/
theorem openSentence_fields (s : ScanState) (st : ℚ) (spk : String) :
    (openSentence s st spk).segments = s.segments ∧
    (openSentence s st spk).minute_segments = s.minute_segments ∧
    (openSentence s st spk).current_sentence = s.current_sentence := by
  unfold openSentence
  split <;> simp

/-- A successful emission leaves a non-empty open bucket. -/
theorem create_segment_minute_segments {c : Bool} {s : ScanState} {it : Item}
    {remaining : List Item} {s2 : ScanState}
    (h : create_segment c s it remaining = Except.ok s2) :
    s2.minute_segments ≠ [] := by
  unfold create_segment at h
  rcases he : endTimeValue it.end_time (s.start_time.getD 0) with e | et
  · rw [he] at h
    simp at h
  · rw [he] at h
    simp only [] at h
    split at h
    · simp only [Except.ok.injEq] at h
      subst h
      simp only []
      unfold pushBucket
      split
      · split <;> simp
      · simp
    · split at h
      · simp only [Except.ok.injEq] at h
        subst h
        simp only []
        unfold pushBucket
        split
        · split <;> simp
        · simp
      · split at h
        · simp at h
        · simp only [Except.ok.injEq] at h
          subst h
          simp only []
          unfold pushBucket
          split
          · split <;> simp
          · simp

/-- The word phase preserves progress, and establishes it when the item is
a Word token with a non-empty `alternatives` list. -/
theorem wordPhase_progress {s : ScanState} {it : Item} {rest : List Item}
    {s1 : ScanState} {rem : List Item}
    (h : wordPhase s it rest = Except.ok (s1, rem)) :
    (scanProgress s → scanProgress s1) ∧
    (it.is_punctuation = false → it.alternatives ≠ [] → scanProgress s1) := by
  have hos := openSentence_fields s
  unfold wordPhase at h
  split at h
  · simp only [Except.ok.injEq, Prod.mk.injEq] at h
    rw [← h.1]
    exact ⟨id, by intro hp; rename_i hcontra; simp [hp] at hcontra⟩
  · rename_i hp
    split at h
    · cases h
    · rename_i st hst
      split at h
      · rename_i halts
        simp only [Except.ok.injEq, Prod.mk.injEq] at h
        rw [← h.1]
        constructor
        · intro hprog
          rcases hprog with h1 | h2 | h3
          · exact Or.inl (by simpa [(hos st _).1] using h1)
          · exact Or.inr (Or.inl (by simpa [(hos st _).2.1] using h2))
          · exact Or.inr (Or.inr (by simpa [(hos st _).2.2] using h3))
        · intro _ halts2
          simp [halts] at halts2
      · have hne : ∀ s2 : ScanState, s2.current_sentence ≠ [] → scanProgress s2 :=
          fun s2 h2 => Or.inr (Or.inr h2)
        split at h
        · simp only [Except.ok.injEq, Prod.mk.injEq] at h
          rw [← h.1]
          exact ⟨fun _ => hne _ (by simp [appendWord]), fun _ _ => hne _ (by simp [appendWord])⟩
        · split at h
          · split at h
            · cases h
            · simp only [Except.ok.injEq, Prod.mk.injEq] at h
              rw [← h.1]
              exact ⟨fun _ => hne _ (by simp [mergePunct]), fun _ _ => hne _ (by simp [mergePunct])⟩
          · simp only [Except.ok.injEq, Prod.mk.injEq] at h
            rw [← h.1]
            exact ⟨fun _ => hne _ (by simp [appendWord]), fun _ _ => hne _ (by simp [appendWord])⟩

/-- A full scan step preserves progress, and establishes it on a Word
token that carries text. -/
theorem stepFn_progress {c : Bool} {s : ScanState} {it : Item} {rest : List Item}
    {s1 : ScanState} {rem : List Item}
    (h : stepFn c s it rest = Except.ok (s1, rem)) :
    (scanProgress s → scanProgress s1) ∧
    (it.is_punctuation = false → it.alternatives ≠ [] → scanProgress s1) := by
  unfold stepFn at h
  split at h
  · cases h
  · rename_i hwp
    split at h
    · cases h
    · split at h
      · split at h
        · cases h
        · rename_i hcs
          simp only [Except.ok.injEq, Prod.mk.injEq] at h
          rw [← h.1]
          have hms := create_segment_minute_segments hcs
          exact ⟨fun _ => Or.inr (Or.inl hms), fun _ _ => Or.inr (Or.inl hms)⟩
      · simp only [Except.ok.injEq, Prod.mk.injEq] at h
        rw [← h.1]
        exact wordPhase_progress hwp

/-- Flushing produces a non-empty output whenever the output or the open
bucket is non-empty. -/
theorem flushBuckets_ne_nil {s : ScanState}
    (hs : s.segments ≠ [] ∨ s.minute_segments ≠ []) :
    flushBuckets s ≠ [] := by
  unfold flushBuckets
  rcases hs with h1 | h2
  · split <;> simp [h1]
  · simp [h2]

/-- Finalization of a state with progress yields non-empty output. -/
theorem finalize_progress {c : Bool} {last : Option Item} {s : ScanState}
    {out : List MinuteSegment}
    (h : finalize c last s = Except.ok out) (hp : scanProgress s) :
    out ≠ [] := by
  unfold finalize at h
  split at h
  · rename_i hcs
    simp only [Except.ok.injEq] at h
    subst h
    apply flushBuckets_ne_nil
    rcases hp with h1 | h2 | h3
    · exact Or.inl h1
    · exact Or.inr h2
    · simp [List.isEmpty_iff] at hcs
      exact absurd hcs h3
  · rcases he : endTimeValue (lastEndTime last) (s.sentence_start_time.getD 0) with e | et
    · simp [he] at h
    · simp only [he, Except.ok.injEq] at h
      subst h
      apply flushBuckets_ne_nil
      apply Or.inr
      unfold pushBucket
      split
      · split <;> simp
      · simp

/-- Main induction for non-empty output: a scan that succeeds from a state
with progress, or whose remaining input holds a Word token with text,
returns a non-empty segment list. -/
theorem scanAux_progress_ne_nil (c : Bool) (last : Option Item) :
    ∀ (fuel : ℕ) (s : ScanState) (l : List Item) (out : List MinuteSegment),
      scanAux c last fuel s l = Except.ok out →
      (scanProgress s ∨ ∃ it ∈ l, it.is_punctuation = false ∧ it.alternatives ≠ []) →
      out ≠ [] := by
  intro fuel
  induction fuel with
  | zero =>
    intro s l out h hgood
    cases l with
    | nil =>
      rcases hgood with hg | ⟨it, hmem, _⟩
      · exact finalize_progress h hg
      · cases hmem
    | cons a t => cases h
  | succ f ih =>
    intro s l out h hgood
    cases l with
    | nil =>
      rcases hgood with hg | ⟨it, hmem, _⟩
      · exact finalize_progress h hg
      · cases hmem
    | cons a t =>
      rw [scanAux] at h
      rcases hstep : stepFn c s a t with e | ⟨s1, rem⟩
      · rw [hstep] at h; cases h
      · rw [hstep] at h
        apply ih s1 rem out h
        rcases hgood with hg | ⟨it, hmem, hip, hia⟩
        · exact Or.inl ((stepFn_progress hstep).1 hg)
        · rcases List.mem_cons.mp hmem with rfl | hmem2
          · exact Or.inl ((stepFn_progress hstep).2 hip hia)
          · refine Or.inr ⟨it, ?_, hip, hia⟩
            rcases stepFn_rem hstep with rfl | ⟨nx, r2, heq, hnx, rfl⟩
            · exact hmem2
            · subst heq
              rcases List.mem_cons.mp hmem2 with rfl | h3
              · rw [hip] at hnx; cases hnx
              · exact h3

/-! ## C5 — at least one sentence

Claim C5 asserts that any input with at least one Word token (even one
with missing or empty `alternatives`) yields at least one Sentence.  A
Word token without alternatives opens a sentence but contributes no word,
so `current_sentence` stays empty, no boundary ever fires and the output
is empty: the claim fails.  It holds once the Word token carries text. -/

/-- C5 counterexample: a single Word token with parseable timestamp but an
empty `alternatives` list produces an empty output, although the input
contains a Word token. -/
theorem c5_counterexample :
    process_transcript_data false [⟨false, TimeVal.val 0, TimeVal.absent, [], none⟩] =
      Except.ok [] := by
  norm_num +decide [process_transcript_data, scanAux, stepFn, wordPhase,
    should_create_segment, create_segment, mkSegment, pushBucket, speakerIdOf, mapLookup, openSentence,
    appendWord, endTimeValue, finalize, flushBuckets, pyFloat, initState, isSentenceEnd]

/-- C5 (amended): for every input that contains at least one Word token
with a non-empty `alternatives` list, a successful run of
`process_transcript_data` returns at least one minute group (hence at
least one Sentence).  Word tokens with missing or empty `alternatives`
participate in the scan with their timing but contribute no text, and an
input containing only such Word tokens produces empty output. -/
theorem c5_amended :
    ∀ (is_chinese : Bool) (items : List Item) (out : List MinuteSegment),
      process_transcript_data is_chinese items = Except.ok out →
      (∃ it ∈ items, it.is_punctuation = false ∧ it.alternatives ≠ []) →
      out ≠ [] := by
  intro c items out h hgood
  exact scanAux_progress_ne_nil c items.getLast? items.length initState items out h
    (Or.inr hgood)

/-- Witness for `c5_amended` at the one-word input `"hi"`. -/
theorem c5_amended_witness :
    ([⟨0, [⟨0, 0, "hi", "Speaker 1", ["hi"], some "spk_0"⟩]⟩] : List MinuteSegment) ≠ [] := by
  refine c5_amended false [word 0 "hi"] _ ?_
    ⟨word 0 "hi", List.mem_singleton.mpr rfl, rfl, by simp [word]⟩
  norm_num +decide [word, process_transcript_data, scanAux, stepFn, wordPhase,
    should_create_segment, create_segment, mkSegment, pushBucket, speakerIdOf, mapLookup, openSentence,
    appendWord, endTimeValue, finalize, flushBuckets, pyFloat, pyInt, initState, isSentenceEnd]

/-! ## C9 — malformed timestamps are a batch failure -/

/-- C9: if any Word token has a missing or unparsable `start_time`, the
whole batch fails and no segment list is returned; likewise (second
conjunct, shown on a concrete input) when the `end_time` consulted at a
boundary is unparsable. -/
theorem c9_malformed :
    (∀ (is_chinese : Bool) (items : List Item),
      (∃ it ∈ items, it.is_punctuation = false ∧
        (it.start_time = TimeVal.absent ∨ it.start_time = TimeVal.bad)) →
      ∀ out, process_transcript_data is_chinese items ≠ Except.ok out) ∧
    (∀ out, process_transcript_data false
        [⟨false, TimeVal.val 0, TimeVal.bad, ["x."], none⟩] ≠ Except.ok out) := by
  constructor
  · intro c items hbad out
    obtain ⟨e, he⟩ := scanAux_error_of_bad c items.getLast? items.length initState items hbad
    rw [process_transcript_data, he]
    simp
  · intro out
    have h : process_transcript_data false
        [⟨false, TimeVal.val 0, TimeVal.bad, ["x."], none⟩] =
        Except.error "ValueError: could not convert string to float" := by
      norm_num +decide [process_transcript_data, scanAux, stepFn, wordPhase,
        should_create_segment, create_segment, mkSegment, pushBucket, speakerIdOf, mapLookup, openSentence,
        appendWord, endTimeValue, finalize, flushBuckets, pyFloat, initState, isSentenceEnd]
    rw [h]
    simp

/-- Witness for `c9_malformed` at a one-word input with missing
`start_time`. -/
theorem c9_malformed_witness :
    process_transcript_data false [⟨false, TimeVal.absent, TimeVal.absent, ["hi"], none⟩] ≠
      Except.ok [] :=
  c9_malformed.1 false _
    ⟨⟨false, TimeVal.absent, TimeVal.absent, ["hi"], none⟩,
      List.mem_singleton.mpr rfl, rfl, Or.inl rfl⟩ []

/-! ## C10 — misplaced punctuation items

Claim C10 asserts that the scan never raises on a punctuation item that
is not immediately preceded by a Word token, and continues past it.  The
inert parts are true: such an item's `alternatives`, `speaker_label` and
`start_time` are never read, its text is never appended, it neither opens
a sentence nor changes the speaker, and with no accumulated words the
step is a no-op.  But "never raises" is false: a boundary can fire *at*
such an item (in particular when it is the last item and a sentence is
open), and line 372 then parses the item's own `end_time` — an
unparsable value raises `ValueError` and aborts the batch. -/

/-- C10 counterexample: `[Word "a"; Punct "."; Punct ","]` where the
final punctuation item — the second of two consecutive punctuation items,
so reached directly by the loop — carries an unparsable `end_time`.  The
"." is merged into `"a."` by the Word's lookahead; at the final item the
end-of-stream boundary fires with the open sentence `["a."]`, and
`float(item.get('end_time', start_time))` raises on the item's bad
`end_time`: the whole batch fails instead of continuing past the item. -/
theorem c10_counterexample :
    process_transcript_data false
      [word 0 "a", punctItem ".", ⟨true, TimeVal.absent, TimeVal.bad, [","], none⟩] =
    Except.error "ValueError: could not convert string to float" := by
  norm_num +decide [word, punctItem, process_transcript_data, scanAux, stepFn,
    wordPhase, should_create_segment, create_segment, mkSegment, pushBucket,
    speakerIdOf, mapLookup, openSentence, appendWord, mergePunct, endTimeValue,
    finalize, flushBuckets, pyFloat, pyInt, initState, isSentenceEnd]

/-- The lookahead at a boundary check is safe: the successor item (if any)
is punctuation or has a parseable `start_time` (its unparsability is a
separate failure mode, treated by C9). -/
def lookaheadSafe (rest : List Item) : Prop :=
  match rest with
  | [] => True
  | nx :: _ => nx.is_punctuation = true ∨ ∃ q, nx.start_time = TimeVal.val q

/-- A `get`-style read of a non-`bad` timestamp succeeds. -/
theorem endTimeValue_ok {tv : TimeVal} (h : tv ≠ TimeVal.bad) (f : ℚ) :
    ∃ v, endTimeValue tv f = Except.ok v := by
  cases tv with
  | absent => exact ⟨f, rfl⟩
  | bad => exact absurd rfl h
  | val q => exact ⟨q, rfl⟩

/-- Emission succeeds when the consulted end time resolves and the
lookahead is safe. -/
theorem create_segment_ok {c : Bool} {s : ScanState} {it : Item}
    {remaining : List Item} {et : ℚ}
    (hev : endTimeValue it.end_time (s.start_time.getD 0) = Except.ok et)
    (hsafe : lookaheadSafe remaining) :
    ∃ s2, create_segment c s it remaining = Except.ok s2 := by
  unfold create_segment
  rw [hev]
  cases remaining with
  | nil => exact ⟨_, rfl⟩
  | cons nx r2 =>
    by_cases hnp : nx.is_punctuation = true
    · simp only [hnp]
      exact ⟨_, rfl⟩
    · rcases hsafe with h | ⟨q, hq⟩
      · exact absurd h hnp
      · simp only [hnp, hq, pyFloat]
        exact ⟨_, rfl⟩

/-- C10 (amended): a punctuation item processed directly by the loop (i.e. not
consumed by a preceding Word token's lookahead — e.g. one at the very
start of the stream, or the second of two consecutive punctuation items)
never causes a failure attributable to its own fields and never
contributes to the sentence: (1) the step's outcome does not depend on the
item's `alternatives`, `speaker_label` or `start_time` (so a missing or
empty `alternatives` list cannot raise); (2) with no accumulated words the
step is a pure no-op — the state is unchanged (no sentence opened, no
speaker change, no text appended) and the scan continues past the item;
(3) whenever the item's own `end_time` is not unparsable and the lookahead
is safe, the step succeeds and the scan continues past the item. -/
theorem c10_direct_punctuation (c : Bool) (s : ScanState) (p p2 : Item)
    (rest : List Item) (hp : p.is_punctuation = true) :
    (p2.is_punctuation = true → p.end_time = p2.end_time →
       stepFn c s p rest = stepFn c s p2 rest) ∧
    (s.current_sentence = [] → stepFn c s p rest = Except.ok (s, rest)) ∧
    (p.end_time ≠ TimeVal.bad → lookaheadSafe rest →
       ∃ s1, stepFn c s p rest = Except.ok (s1, rest)) := by
  refine ⟨?_, ?_, ?_⟩
  · intro hp2 hend
    have hcs : create_segment c s p rest = create_segment c s p2 rest := by
      unfold create_segment
      rw [hend]
    simp [stepFn, wordPhase, hp, hp2, hcs]
  · intro hempty
    simp [stepFn, wordPhase, hp, should_create_segment, hempty]
  · intro hend hsafe
    rcases hw : s.current_sentence.getLast? with _ | w
    · exact ⟨s, by simp [stepFn, wordPhase, hp, should_create_segment, hw]⟩
    · have hne : s.current_sentence ≠ [] := by
        intro hx
        rw [hx] at hw
        cases hw
      obtain ⟨et, hev⟩ := endTimeValue_ok hend (s.start_time.getD 0)
      rcases hb : should_create_segment s rest with e | b
      · exfalso
        rw [should_create_segment, hw] at hb
        cases rest with
        | nil => cases hb
        | cons nx r2 =>
          by_cases hnp : nx.is_punctuation = true
          · simp [hnp] at hb
          · rcases hsafe with h | ⟨q, hq⟩
            · exact absurd h hnp
            · simp [hnp, hq, pyFloat] at hb
      · cases b with
        | false => exact ⟨s, by simp [stepFn, wordPhase, hp, hb]⟩
        | true =>
          obtain ⟨s2, hc⟩ := @create_segment_ok c _ _ _ _ hev hsafe
          exact ⟨s2, by simp [stepFn, wordPhase, hp, hb, hne, hc]⟩

/-- Witness for `c10_direct_punctuation`: a stream-initial '.' item with a
well-formed alternatives list behaves exactly like one with no
alternatives at all, and from the initial state the step is a no-op. -/
theorem c10_direct_punctuation_witness :
    stepFn false initState (punctItem ".") [] =
      stepFn false initState ⟨true, TimeVal.absent, TimeVal.absent, [], none⟩ [] ∧
    stepFn false initState (punctItem ".") [] = Except.ok (initState, []) :=
  ⟨(c10_direct_punctuation false initState (punctItem ".")
      ⟨true, TimeVal.absent, TimeVal.absent, [], none⟩ [] rfl).1 rfl rfl,
   (c10_direct_punctuation false initState (punctItem ".")
      ⟨true, TimeVal.absent, TimeVal.absent, [], none⟩ [] rfl).2.1 rfl⟩

/-! ## C1 — speaker display labels

Claim C1 asserts that labels are assigned in sentence-open order (first
opener gets "Speaker 1", the next distinct opener "Speaker 2", …) and that
a sentence reopened at a boundary has its label resolved the same way.  In
the code, a fresh label is assigned only on the `sentence_start_time is
None` path (lines 328–333).  That path is taken for the first Word token
and again only after the clearing branch of lines 393–395 — and a boundary
fires only when the lookahead is a non-punctuation item (reopen) or at the
very last item (after which the loop ends), so the cleared state is never
revisited with items left.  A sentence reopened at a boundary (lines
390–392) sets `current_speaker` without touching `speaker_map`; at
emission, `speaker_map.get(current_speaker, "Speaker 1")` then falls back
to "Speaker 1".  Hence the map only ever holds the first opener mapped to
"Speaker 1", and every emitted segment's SpeakerId is "Speaker 1". -/

/-- Invariant for C1: all mapped labels are "Speaker 1", the cleared state
still has the pristine map (or no items remain), and everything emitted so
far carries "Speaker 1". -/

def spk1Inv (s : ScanState) (l : List Item) : Prop :=
  (∀ kv ∈ s.speaker_map, kv.2 = "Speaker 1") ∧
  (s.sentence_start_time = none → (s.speaker_map = [] ∧ s.speaker_count = 1) ∨ l = []) ∧
  (∀ g ∈ s.segments, ∀ seg ∈ g.segments, seg.SpeakerId = "Speaker 1") ∧
  (∀ seg ∈ s.minute_segments, seg.SpeakerId = "Speaker 1")

theorem mapLookup_mem {m : List (String × String)} {k v : String}
    (h : mapLookup m k = some v) : (k, v) ∈ m := by
  induction m with
  | nil => cases h
  | cons kv t ih =>
    obtain ⟨a, b⟩ := kv
    rw [mapLookup] at h
    split at h
    · simp only [Option.some.injEq] at h
      subst h
      rename_i ha
      subst ha
      exact List.mem_cons_self _ _
    · exact List.mem_cons_of_mem _ (ih h)

theorem speakerIdOf_spk1 {s : ScanState}
    (hA : ∀ kv ∈ s.speaker_map, kv.2 = "Speaker 1") :
    speakerIdOf s = "Speaker 1" := by
  unfold speakerIdOf
  split
  · rfl
  · rename_i cs _
    rcases hl : mapLookup s.speaker_map cs with _ | v
    · rfl
    · simpa using hA _ (mapLookup_mem hl)

theorem should_true_shape {s : ScanState} {rem : List Item}
    (h : should_create_segment s rem = Except.ok true) :
    s.current_sentence ≠ [] ∧
    (rem = [] ∨ ∃ nx r2, rem = nx :: r2 ∧ nx.is_punctuation = false) := by
  unfold should_create_segment at h
  split at h
  · cases h
  · rename_i w hw
    constructor
    · intro hx
      rw [hx] at hw
      cases hw
    · cases rem with
      | nil => exact Or.inl rfl
      | cons nx r2 =>
        by_cases hnp : nx.is_punctuation = true
        · simp [hnp] at h
        · exact Or.inr ⟨nx, r2, rfl, by simpa using hnp⟩

theorem pushBucket_spk1 {s : ScanState} {cim : ℤ} {seg : TranscriptionSegment}
    (hC : ∀ g ∈ s.segments, ∀ sg ∈ g.segments, sg.SpeakerId = "Speaker 1")
    (hD : ∀ sg ∈ s.minute_segments, sg.SpeakerId = "Speaker 1")
    (hseg : seg.SpeakerId = "Speaker 1") :
    (∀ g ∈ (pushBucket s cim seg).segments, ∀ sg ∈ g.segments, sg.SpeakerId = "Speaker 1") ∧
    (∀ sg ∈ (pushBucket s cim seg).minute_segments, sg.SpeakerId = "Speaker 1") := by
  unfold pushBucket
  split
  · split
    · refine ⟨by simpa using hC, ?_⟩
      intro sg hsg
      simp only [List.mem_append, List.mem_singleton] at hsg
      rcases hsg with h1 | h1
      · exact hD _ h1
      · rw [h1]; exact hseg
    · constructor
      · intro g hg
        simp only [List.mem_append, List.mem_singleton] at hg
        rcases hg with h1 | h1
        · exact hC _ h1
        · rw [h1]; exact hD
      · intro sg hsg
        simp only [List.nil_append, List.mem_singleton] at hsg
        rw [hsg]; exact hseg
  · refine ⟨by simpa using hC, ?_⟩
    intro sg hsg
    simp only [List.mem_append, List.mem_singleton] at hsg
    rcases hsg with h1 | h1
    · exact hD _ h1
    · rw [h1]; exact hseg

theorem pushBucket_spk1_segments {s : ScanState} {cim : ℤ} {seg : TranscriptionSegment}
    (hC : ∀ g ∈ s.segments, ∀ sg ∈ g.segments, sg.SpeakerId = "Speaker 1")
    (hD : ∀ sg ∈ s.minute_segments, sg.SpeakerId = "Speaker 1")
    (hseg : seg.SpeakerId = "Speaker 1") :
    ∀ g ∈ (pushBucket s cim seg).segments, ∀ sg ∈ g.segments, sg.SpeakerId = "Speaker 1" :=
  (pushBucket_spk1 hC hD hseg).1

theorem pushBucket_spk1_minute {s : ScanState} {cim : ℤ} {seg : TranscriptionSegment}
    (hC : ∀ g ∈ s.segments, ∀ sg ∈ g.segments, sg.SpeakerId = "Speaker 1")
    (hD : ∀ sg ∈ s.minute_segments, sg.SpeakerId = "Speaker 1")
    (hseg : seg.SpeakerId = "Speaker 1") :
    ∀ sg ∈ (pushBucket s cim seg).minute_segments, sg.SpeakerId = "Speaker 1" :=
  (pushBucket_spk1 hC hD hseg).2

theorem openSentence_spk1 {s : ScanState} {l : List Item} (hinv : spk1Inv s l)
    (hl : l ≠ []) (st : ℚ) (spk : String) :
    (∀ kv ∈ (openSentence s st spk).speaker_map, kv.2 = "Speaker 1") ∧
    (openSentence s st spk).sentence_start_time ≠ none := by
  obtain ⟨hA, hB, _, _⟩ := hinv
  unfold openSentence
  split
  · rename_i hnone
    rcases hB hnone with ⟨hmap, hcount⟩ | hlnil
    · constructor
      · intro kv hkv
        simp only [hmap, hcount, mapLookup, List.nil_append, Option.isNone_none,
          if_true, List.mem_singleton] at hkv
        rw [hkv]
        rfl
      · simp
    · exact absurd hlnil hl
  · rename_i hsome
    exact ⟨hA, hsome⟩

theorem wordPhase_spk1 {s : ScanState} {it : Item} {rest : List Item}
    {s1 : ScanState} {rem : List Item}
    (h : wordPhase s it rest = Except.ok (s1, rem))
    (hinv : spk1Inv s (it :: rest)) : spk1Inv s1 rem := by
  obtain ⟨hA, hB, hC, hD⟩ := hinv
  have hop := @openSentence_spk1 _ (it :: rest) ⟨hA, hB, hC, hD⟩ (List.cons_ne_nil it rest)
  have hof := openSentence_fields s
  unfold wordPhase at h
  split at h
  · simp only [Except.ok.injEq, Prod.mk.injEq] at h
    rw [← h.1]
    refine ⟨hA, ?_, hC, hD⟩
    intro hnone
    rcases hB hnone with hgood | hnil
    · exact Or.inl hgood
    · cases hnil
  · split at h
    · cases h
    · rename_i st hst
      split at h
      · simp only [Except.ok.injEq, Prod.mk.injEq] at h
        rw [← h.1]
        refine ⟨(hop st _).1, ?_, by simpa [(hof st _).1] using hC,
          by simpa [(hof st _).2.1] using hD⟩
        intro hnone
        exact absurd hnone (hop st _).2
      · split at h
        · simp only [Except.ok.injEq, Prod.mk.injEq] at h
          rw [← h.1]
          refine ⟨(hop st _).1, ?_, by simpa [appendWord, (hof st _).1] using hC,
            by simpa [appendWord, (hof st _).2.1] using hD⟩
          intro hnone
          exact absurd hnone (by simpa [appendWord] using (hop st _).2)
        · split at h
          · split at h
            · cases h
            · simp only [Except.ok.injEq, Prod.mk.injEq] at h
              rw [← h.1]
              refine ⟨(hop st _).1, ?_,
                by simpa [mergePunct, appendWord, (hof st _).1] using hC,
                by simpa [mergePunct, appendWord, (hof st _).2.1] using hD⟩
              intro hnone
              exact absurd hnone (by simpa [mergePunct, appendWord] using (hop st _).2)
          · simp only [Except.ok.injEq, Prod.mk.injEq] at h
            rw [← h.1]
            refine ⟨(hop st _).1, ?_, by simpa [appendWord, (hof st _).1] using hC,
              by simpa [appendWord, (hof st _).2.1] using hD⟩
            intro hnone
            exact absurd hnone (by simpa [appendWord] using (hop st _).2)

theorem pushBucket_speaker_map (s : ScanState) (cim : ℤ) (seg : TranscriptionSegment) :
    (pushBucket s cim seg).speaker_map = s.speaker_map := by
  unfold pushBucket
  split
  · split <;> rfl
  · rfl

theorem create_segment_spk1 {c : Bool} {s : ScanState} {it : Item}
    {remaining : List Item} {s2 : ScanState}
    (h : create_segment c s it remaining = Except.ok s2)
    (hA : ∀ kv ∈ s.speaker_map, kv.2 = "Speaker 1")
    (hC : ∀ g ∈ s.segments, ∀ sg ∈ g.segments, sg.SpeakerId = "Speaker 1")
    (hD : ∀ sg ∈ s.minute_segments, sg.SpeakerId = "Speaker 1")
    (hshape : remaining = [] ∨ ∃ nx r2, remaining = nx :: r2 ∧ nx.is_punctuation = false) :
    spk1Inv s2 remaining := by
  unfold create_segment at h
  rcases hev : endTimeValue it.end_time (s.start_time.getD 0) with e | et
  · rw [hev] at h
    simp at h
  · rw [hev] at h
    simp only [] at h
    split at h
    · simp only [Except.ok.injEq] at h
      subst h
      refine ⟨by simpa [pushBucket_speaker_map] using hA, fun _ => Or.inr rfl, ?_, ?_⟩
      · exact @pushBucket_spk1_segments _ _ (mkSegment c s et) hC hD (speakerIdOf_spk1 hA)
      · exact @pushBucket_spk1_minute _ _ (mkSegment c s et) hC hD (speakerIdOf_spk1 hA)
    · rename_i nx r2
      split at h
      · rename_i hnp
        exfalso
        rcases hshape with hnil | ⟨nx2, r22, heq, hnp2⟩
        · cases hnil
        · simp only [List.cons.injEq] at heq
          rw [← heq.1] at hnp2
          rw [hnp2] at hnp
          cases hnp
      · split at h
        · cases h
        · simp only [Except.ok.injEq] at h
          subst h
          refine ⟨by simpa [pushBucket_speaker_map] using hA, ?_, ?_, ?_⟩
          · intro hnone
            cases hnone
          · exact @pushBucket_spk1_segments _ _ (mkSegment c s et) hC hD (speakerIdOf_spk1 hA)
          · exact @pushBucket_spk1_minute _ _ (mkSegment c s et) hC hD (speakerIdOf_spk1 hA)

theorem stepFn_spk1 {c : Bool} {s : ScanState} {it : Item} {rest : List Item}
    {s1 : ScanState} {rem : List Item}
    (h : stepFn c s it rest = Except.ok (s1, rem))
    (hinv : spk1Inv s (it :: rest)) : spk1Inv s1 rem := by
  unfold stepFn at h
  split at h
  · cases h
  · rename_i hwp
    have hinv1 := wordPhase_spk1 hwp hinv
    split at h
    · cases h
    · rename_i b hb
      split at h
      · rename_i hcond
        split at h
        · cases h
        · rename_i hcs
          simp only [Except.ok.injEq, Prod.mk.injEq] at h
          obtain ⟨rfl, rfl⟩ := h
          have hbtrue : b = true := by
            have h2 := hcond
            simp only [Bool.and_eq_true] at h2
            exact h2.1
          subst hbtrue
          obtain ⟨hA1, hB1, hC1, hD1⟩ := hinv1
          exact create_segment_spk1 hcs hA1 hC1 hD1 (should_true_shape hb).2
      · simp only [Except.ok.injEq, Prod.mk.injEq] at h
        obtain ⟨rfl, rfl⟩ := h
        exact hinv1

theorem finalize_spk1 {c : Bool} {last : Option Item} {s : ScanState}
    {out : List MinuteSegment}
    (h : finalize c last s = Except.ok out) (hinv : spk1Inv s []) :
    ∀ g ∈ out, ∀ sg ∈ g.segments, sg.SpeakerId = "Speaker 1" := by
  obtain ⟨hA, _, hC, hD⟩ := hinv
  have hflush : ∀ s2 : ScanState,
      (∀ g ∈ s2.segments, ∀ sg ∈ g.segments, sg.SpeakerId = "Speaker 1") →
      (∀ sg ∈ s2.minute_segments, sg.SpeakerId = "Speaker 1") →
      ∀ g ∈ flushBuckets s2, ∀ sg ∈ g.segments, sg.SpeakerId = "Speaker 1" := by
    intro s2 h1 h2 g hg
    unfold flushBuckets at hg
    split at hg
    · exact h1 g hg
    · simp only [List.mem_append, List.mem_singleton] at hg
      rcases hg with hg | hg
      · exact h1 g hg
      · rw [hg]
        exact h2
  unfold finalize at h
  split at h
  · simp only [Except.ok.injEq] at h
    subst h
    exact hflush s hC hD
  · rcases he : endTimeValue (lastEndTime last) (s.sentence_start_time.getD 0) with e | et
    · simp [he] at h
    · simp only [he, Except.ok.injEq] at h
      subst h
      refine hflush _ ?_ ?_
      · exact @pushBucket_spk1_segments _ _ (mkSegment c s et) hC hD (speakerIdOf_spk1 hA)
      · exact @pushBucket_spk1_minute _ _ (mkSegment c s et) hC hD (speakerIdOf_spk1 hA)

theorem scanAux_spk1 (c : Bool) (last : Option Item) :
    ∀ (fuel : ℕ) (s : ScanState) (l : List Item) (out : List MinuteSegment),
      scanAux c last fuel s l = Except.ok out → spk1Inv s l →
      ∀ g ∈ out, ∀ sg ∈ g.segments, sg.SpeakerId = "Speaker 1" := by
  intro fuel
  induction fuel with
  | zero =>
    intro s l out h hinv
    cases l with
    | nil => exact finalize_spk1 h hinv
    | cons a t => cases h
  | succ f ih =>
    intro s l out h hinv
    cases l with
    | nil => exact finalize_spk1 h hinv
    | cons a t =>
      rw [scanAux] at h
      rcases hstep : stepFn c s a t with e | ⟨s1, rem⟩
      · rw [hstep] at h; cases h
      · rw [hstep] at h
        exact ih s1 rem out h (stepFn_spk1 hstep hinv)

/-- C1 (amended): a display label is assigned only when a sentence opens
from the cleared state, which happens for the first sentence only (the
cleared state is otherwise reached only at the end of the stream); a
sentence reopened at a boundary never assigns a label and unmapped raw
speakers fall back to "Speaker 1" at emission.  Consequently every segment
of every successful run has SpeakerId "Speaker 1". -/
theorem c1_amended :
    ∀ (is_chinese : Bool) (items : List Item) (out : List MinuteSegment),
      process_transcript_data is_chinese items = Except.ok out →
      ∀ g ∈ out, ∀ sg ∈ g.segments, sg.SpeakerId = "Speaker 1" := by
  intro c items out h
  refine scanAux_spk1 c items.getLast? items.length initState items out h ?_
  refine ⟨?_, ?_, ?_, ?_⟩
  · intro kv hkv
    cases hkv
  · intro _
    exact Or.inl ⟨rfl, rfl⟩
  · intro g hg
    cases hg
  · intro sg hsg
    cases hsg

/-- C1 counterexample: fifteen words of raw speaker `spk_0` (the 15th
ending '.') followed by one word of raw speaker `spk_1`.  Boundary rule
(b) fires at the 15th word and the second sentence is opened by `spk_1` —
a second distinct sentence-opening raw id, which under the claim would
receive and display "Speaker 2".  The code emits both segments with
SpeakerId "Speaker 1" (the ghost `rawSpeaker` fields show the two distinct
openers). -/
theorem c1_counterexample :
    process_transcript_data false
      ((List.range 14).map (fun k => wordSpk k "w" "spk_0") ++
        [wordSpk 14 "w." "spk_0", wordSpk 15 "z" "spk_1"]) =
    Except.ok [⟨0,
      [⟨0, 14000, String.intercalate " " (List.replicate 14 "w" ++ ["w."]),
        "Speaker 1", List.replicate 14 "w" ++ ["w."], some "spk_0"⟩,
       ⟨15000, 15000, "z", "Speaker 1", ["z"], some "spk_1"⟩]⟩] := by
  norm_num +decide [wordSpk, List.range_succ,
    process_transcript_data, scanAux, stepFn, wordPhase, should_create_segment,
    create_segment, mkSegment, pushBucket, speakerIdOf, mapLookup, openSentence,
    appendWord, mergePunct, endTimeValue, finalize, flushBuckets, pyFloat, pyInt,
    initState, isSentenceEnd]

/-- Witness for `c1_amended` at a one-word input with raw speaker
`alice`. -/
theorem c1_amended_witness :
    (⟨0, 0, "a", "Speaker 1", ["a"], some "alice"⟩ : TranscriptionSegment).SpeakerId =
      "Speaker 1" := by
  refine c1_amended false [wordSpk 0 "a" "alice"]
    [⟨0, [⟨0, 0, "a", "Speaker 1", ["a"], some "alice"⟩]⟩] ?_
    ⟨0, [⟨0, 0, "a", "Speaker 1", ["a"], some "alice"⟩]⟩ (List.mem_singleton.mpr rfl)
    ⟨0, 0, "a", "Speaker 1", ["a"], some "alice"⟩ (List.mem_singleton.mpr rfl)
  norm_num +decide [wordSpk, process_transcript_data, scanAux, stepFn, wordPhase,
    should_create_segment, create_segment, mkSegment, pushBucket, speakerIdOf,
    mapLookup, openSentence, appendWord, endTimeValue, finalize, flushBuckets,
    pyFloat, pyInt, initState, isSentenceEnd]

/-! ## C4 — the 150-word hard cap

The cap check (line 361) fires whenever the boundary test runs with a
non-punctuation successor and 150 accumulated words; the boundary test
runs after every item, so the accumulator can only sit at exactly 150
while the next item is punctuation (whose processing cannot append), and
it can never reach 151.  Every emission (mid-stream or final flush) hence
carries at most 150 words. -/

/-- Head of the remaining input is a punctuation item (or nothing left). -/
def nextIsPunct (l : List Item) : Prop :=
  match l with
  | [] => True
  | it :: _ => it.is_punctuation = true

/-- Invariant for C4: the accumulator never exceeds 150 entries, it can
only sit exactly at 150 when the next item to process is punctuation, and
everything emitted so far has at most 150 words. -/
def c4Inv (s : ScanState) (l : List Item) : Prop :=
  s.current_sentence.length ≤ 150 ∧
  (s.current_sentence.length = 150 → nextIsPunct l) ∧
  (∀ g ∈ s.segments, ∀ sg ∈ g.segments, sg.words.length ≤ 150) ∧
  (∀ sg ∈ s.minute_segments, sg.words.length ≤ 150)

/-- Generalization of the bucket-push membership lemmas: any property of
segments holding for the banked output, the open bucket and the pushed
segment holds after the push. -/
theorem pushBucket_pred {P : TranscriptionSegment → Prop} {s : ScanState}
    {cim : ℤ} {seg : TranscriptionSegment}
    (hC : ∀ g ∈ s.segments, ∀ sg ∈ g.segments, P sg)
    (hD : ∀ sg ∈ s.minute_segments, P sg)
    (hseg : P seg) :
    (∀ g ∈ (pushBucket s cim seg).segments, ∀ sg ∈ g.segments, P sg) ∧
    (∀ sg ∈ (pushBucket s cim seg).minute_segments, P sg) := by
  unfold pushBucket
  split
  · split
    · refine ⟨by simpa using hC, ?_⟩
      intro sg hsg
      simp only [List.mem_append, List.mem_singleton] at hsg
      rcases hsg with h1 | h1
      · exact hD _ h1
      · rw [h1]; exact hseg
    · constructor
      · intro g hg
        simp only [List.mem_append, List.mem_singleton] at hg
        rcases hg with h1 | h1
        · exact hC _ h1
        · rw [h1]; exact hD
      · intro sg hsg
        simp only [List.nil_append, List.mem_singleton] at hsg
        rw [hsg]; exact hseg
  · refine ⟨by simpa using hC, ?_⟩
    intro sg hsg
    simp only [List.mem_append, List.mem_singleton] at hsg
    rcases hsg with h1 | h1
    · exact hD _ h1
    · rw [h1]; exact hseg

/-- A boundary decision of `false` means: nothing accumulated, or the
successor is punctuation, or the accumulator is below the hard cap. -/
theorem should_false_shape {s : ScanState} {rem : List Item}
    (h : should_create_segment s rem = Except.ok false) :
    s.current_sentence = [] ∨
      (∃ nx r2, rem = nx :: r2 ∧
        (nx.is_punctuation = true ∨ s.current_sentence.length < 150)) := by
  unfold should_create_segment at h
  split at h
  · rename_i hw
    left
    cases hl : s.current_sentence with
    | nil => rfl
    | cons a t =>
      rw [hl] at hw
      simp at hw
  · rename_i w hw
    right
    cases rem with
    | nil => simp at h
    | cons nx r2 =>
      refine ⟨nx, r2, rfl, ?_⟩
      by_cases hnp : nx.is_punctuation = true
      · exact Or.inl hnp
      · right
        simp only [hnp] at h
        rcases hq : pyFloat nx.start_time with e | q
        · rw [hq] at h
          cases h
        · rw [hq] at h
          simp only [Except.ok.injEq] at h
          by_contra hge
          push_neg at hge
          simp [Nat.le_of_not_lt, hge] at h

theorem wordPhase_c4 {s : ScanState} {it : Item} {rest : List Item}
    {s1 : ScanState} {rem : List Item}
    (h : wordPhase s it rest = Except.ok (s1, rem)) :
    (s1.current_sentence = s.current_sentence ∨
      (s1.current_sentence.length = s.current_sentence.length + 1 ∧
        it.is_punctuation = false)) ∧
    s1.segments = s.segments ∧ s1.minute_segments = s.minute_segments := by
  have hof := openSentence_fields s
  unfold wordPhase at h
  split at h
  · simp only [Except.ok.injEq, Prod.mk.injEq] at h
    rw [← h.1]
    exact ⟨Or.inl rfl, rfl, rfl⟩
  · rename_i hp
    split at h
    · cases h
    · rename_i st hst
      split at h
      · simp only [Except.ok.injEq, Prod.mk.injEq] at h
        rw [← h.1]
        exact ⟨Or.inl (hof st _).2.2, (hof st _).1, (hof st _).2.1⟩
      · split at h
        · simp only [Except.ok.injEq, Prod.mk.injEq] at h
          rw [← h.1]
          refine ⟨Or.inr ⟨?_, by simpa using hp⟩, (hof st _).1, (hof st _).2.1⟩
          simp [appendWord, (hof st _).2.2]
        · split at h
          · split at h
            · cases h
            · simp only [Except.ok.injEq, Prod.mk.injEq] at h
              rw [← h.1]
              refine ⟨Or.inr ⟨?_, by simpa using hp⟩, (hof st _).1, (hof st _).2.1⟩
              have hlen : ∀ (l : List String) (x : String), l ≠ [] →
                  (l.dropLast ++ [x]).length = l.length := by
                intro l x hl
                rw [List.length_append, List.length_dropLast, List.length_singleton]
                have hpos := List.length_pos.mpr hl
                omega
              simp only [mergePunct, appendWord]
              rw [hlen _ _ (by simp)]
              simp [(hof st _).2.2]
          · simp only [Except.ok.injEq, Prod.mk.injEq] at h
            rw [← h.1]
            refine ⟨Or.inr ⟨?_, by simpa using hp⟩, (hof st _).1, (hof st _).2.1⟩
            simp [appendWord, (hof st _).2.2]

theorem create_segment_c4 {c : Bool} {s : ScanState} {it : Item}
    {remaining : List Item} {s2 : ScanState}
    (h : create_segment c s it remaining = Except.ok s2)
    (hC : ∀ g ∈ s.segments, ∀ sg ∈ g.segments, sg.words.length ≤ 150)
    (hD : ∀ sg ∈ s.minute_segments, sg.words.length ≤ 150)
    (hw : s.current_sentence.length ≤ 150) :
    s2.current_sentence = [] ∧
    (∀ g ∈ s2.segments, ∀ sg ∈ g.segments, sg.words.length ≤ 150) ∧
    (∀ sg ∈ s2.minute_segments, sg.words.length ≤ 150) := by
  unfold create_segment at h
  rcases hev : endTimeValue it.end_time (s.start_time.getD 0) with e | et
  · rw [hev] at h
    simp at h
  · rw [hev] at h
    simp only [] at h
    split at h
    · simp only [Except.ok.injEq] at h
      subst h
      exact ⟨rfl, @pushBucket_pred _ _ _ (mkSegment c s et) hC hD hw |>.1,
        @pushBucket_pred _ _ _ (mkSegment c s et) hC hD hw |>.2⟩
    · split at h
      · simp only [Except.ok.injEq] at h
        subst h
        exact ⟨rfl, @pushBucket_pred _ _ _ (mkSegment c s et) hC hD hw |>.1,
          @pushBucket_pred _ _ _ (mkSegment c s et) hC hD hw |>.2⟩
      · split at h
        · cases h
        · simp only [Except.ok.injEq] at h
          subst h
          exact ⟨rfl, @pushBucket_pred _ _ _ (mkSegment c s et) hC hD hw |>.1,
            @pushBucket_pred _ _ _ (mkSegment c s et) hC hD hw |>.2⟩

theorem stepFn_c4 {c : Bool} {s : ScanState} {it : Item} {rest : List Item}
    {s1 : ScanState} {rem : List Item}
    (h : stepFn c s it rest = Except.ok (s1, rem))
    (hinv : c4Inv s (it :: rest)) : c4Inv s1 rem := by
  obtain ⟨h1, h2, h3, h4⟩ := hinv
  unfold stepFn at h
  split at h
  · cases h
  · rename_i hwp
    obtain ⟨hwords, hsegs, hmins⟩ := wordPhase_c4 hwp
    rename_i sw rem0
    have hlen : sw.current_sentence.length ≤ 150 := by
      rcases hwords with heq | ⟨heq, hpnc⟩
      · rw [heq]; exact h1
      · rw [heq]
        have : s.current_sentence.length ≠ 150 := by
          intro h150
          have := h2 h150
          unfold nextIsPunct at this
          simp at this
          rw [this] at hpnc
          cases hpnc
        omega
    split at h
    · cases h
    · rename_i b hb
      split at h
      · split at h
        · cases h
        · rename_i hcs
          simp only [Except.ok.injEq, Prod.mk.injEq] at h
          obtain ⟨rfl, rfl⟩ := h
          obtain ⟨hempty, hC2, hD2⟩ := create_segment_c4 hcs
            (by rw [hsegs]; exact h3) (by rw [hmins]; exact h4) hlen
          refine ⟨by simp [hempty], by simp [hempty], hC2, hD2⟩
      · rename_i hcond
        simp only [Except.ok.injEq, Prod.mk.injEq] at h
        obtain ⟨rfl, rfl⟩ := h
        refine ⟨hlen, ?_, by rw [hsegs]; exact h3, by rw [hmins]; exact h4⟩
        intro h150
        cases b with
        | true =>
          have hcsne : sw.current_sentence ≠ [] := by
            intro hx
            rw [hx] at h150
            simp at h150
          exfalso
          apply hcond
          simp [hcsne]
        | false =>
          rcases should_false_shape hb with hcse | ⟨nx, r2, rfl, hsh⟩
          · rw [hcse] at h150
            simp at h150
          · unfold nextIsPunct
            rcases hsh with hpp | hlt
            · exact hpp
            · omega

theorem flushBuckets_pred {P : TranscriptionSegment → Prop} {s : ScanState}
    (hC : ∀ g ∈ s.segments, ∀ sg ∈ g.segments, P sg)
    (hD : ∀ sg ∈ s.minute_segments, P sg) :
    ∀ g ∈ flushBuckets s, ∀ sg ∈ g.segments, P sg := by
  intro g hg
  unfold flushBuckets at hg
  split at hg
  · exact hC g hg
  · simp only [List.mem_append, List.mem_singleton] at hg
    rcases hg with hg | hg
    · exact hC g hg
    · rw [hg]
      exact hD

theorem finalize_c4 {c : Bool} {last : Option Item} {s : ScanState}
    {out : List MinuteSegment}
    (h : finalize c last s = Except.ok out) (hinv : c4Inv s []) :
    ∀ g ∈ out, ∀ sg ∈ g.segments, sg.words.length ≤ 150 := by
  obtain ⟨h1, _, h3, h4⟩ := hinv
  unfold finalize at h
  split at h
  · simp only [Except.ok.injEq] at h
    subst h
    exact flushBuckets_pred h3 h4
  · rcases he : endTimeValue (lastEndTime last) (s.sentence_start_time.getD 0) with e | et
    · simp [he] at h
    · simp only [he, Except.ok.injEq] at h
      subst h
      exact flushBuckets_pred
        (@pushBucket_pred _ _ _ (mkSegment c s et) h3 h4 h1).1
        (@pushBucket_pred _ _ _ (mkSegment c s et) h3 h4 h1).2

theorem scanAux_c4 (c : Bool) (last : Option Item) :
    ∀ (fuel : ℕ) (s : ScanState) (l : List Item) (out : List MinuteSegment),
      scanAux c last fuel s l = Except.ok out → c4Inv s l →
      ∀ g ∈ out, ∀ sg ∈ g.segments, sg.words.length ≤ 150 := by
  intro fuel
  induction fuel with
  | zero =>
    intro s l out h hinv
    cases l with
    | nil => exact finalize_c4 h hinv
    | cons a t => cases h
  | succ f ih =>
    intro s l out h hinv
    cases l with
    | nil => exact finalize_c4 h hinv
    | cons a t =>
      rw [scanAux] at h
      rcases hstep : stepFn c s a t with e | ⟨s1, rem⟩
      · rw [hstep] at h; cases h
      · rw [hstep] at h
        exact ih s1 rem out h (stepFn_c4 hstep hinv)

/-- C4: every Sentence emitted by a successful run of
`process_transcript_data` contains at most 150 words, counting each Word
token's text (with any merged punctuation attached to its preceding word)
as one word — the ghost `words` field records exactly those entries.  This
holds for every input, independent of punctuation or pauses. -/
theorem c4_word_cap :
    ∀ (is_chinese : Bool) (items : List Item) (out : List MinuteSegment),
      process_transcript_data is_chinese items = Except.ok out →
      ∀ g ∈ out, ∀ sg ∈ g.segments, sg.words.length ≤ 150 := by
  intro c items out h
  refine scanAux_c4 c items.getLast? items.length initState items out h ?_
  refine ⟨by simp [initState], by simp [initState], ?_, ?_⟩
  · intro g hg
    cases hg
  · intro sg hsg
    cases hsg

/-- Witness for `c4_word_cap` at a one-word input. -/
theorem c4_word_cap_witness :
    (⟨0, 0, "hi", "Speaker 1", ["hi"], some "spk_0"⟩ : TranscriptionSegment).words.length ≤
      150 := by
  refine c4_word_cap false [word 0 "hi"]
    [⟨0, [⟨0, 0, "hi", "Speaker 1", ["hi"], some "spk_0"⟩]⟩] ?_
    ⟨0, [⟨0, 0, "hi", "Speaker 1", ["hi"], some "spk_0"⟩]⟩ (List.mem_singleton.mpr rfl)
    ⟨0, 0, "hi", "Speaker 1", ["hi"], some "spk_0"⟩ (List.mem_singleton.mpr rfl)
  norm_num +decide [word, process_transcript_data, scanAux, stepFn, wordPhase,
    should_create_segment, create_segment, mkSegment, pushBucket, speakerIdOf,
    mapLookup, openSentence, appendWord, endTimeValue, finalize, flushBuckets,
    pyFloat, pyInt, initState, isSentenceEnd]

/-! ## C3 (amended) — the general emission rule

The amended C3 has two parts.  (a) Scope: in every successful run, every
finalized sentence's `StartMs` and `EndMs` are Python `int()` truncations
(`pyInt`) of a source time times 1000 — proved as a bucket invariant over
the whole scan.  (b) The emission rule itself: whenever mid-stream
emission succeeds, the segment just appended to the open bucket has
`StartMs = int(sentence_start_time * 1000)` and `EndMs = int(et * 1000)`,
where `et` is the parsed `end_time` of the item at which the boundary
fired (which need not be a Word token) and, when that field is absent,
the loop's `start_time` variable — not `sentence_start_time`. -/

/-- Both millisecond fields of a segment are `int()` truncations of a
source time times 1000. -/
def msTruncated (sg : TranscriptionSegment) : Prop :=
  ∃ st et : ℚ, sg.StartMs = pyInt (st * 1000) ∧ sg.EndMs = pyInt (et * 1000)

/-- The last element of `l ++ [a]` is `a`. -/
theorem getLast?_append_singleton {α : Type} (l : List α) (a : α) :
    (l ++ [a]).getLast? = some a := by
  rw [List.getLast?_append_of_ne_nil l (by simp)]
  rfl

/-- `pushBucket` appends the emitted segment at the end of the open
bucket. -/
theorem pushBucket_last (s : ScanState) (cim : ℤ) (seg : TranscriptionSegment) :
    (pushBucket s cim seg).minute_segments.getLast? = some seg := by
  unfold pushBucket
  exact getLast?_append_singleton _ _

/-- A successful mid-stream emission resolves the fired item's end time
against the loop's `start_time` fallback and appends exactly
`mkSegment c s et` to the open bucket. -/
theorem create_segment_emitted {c : Bool} {s : ScanState} {it : Item}
    {remaining : List Item} {s2 : ScanState}
    (h : create_segment c s it remaining = Except.ok s2) :
    ∃ et, endTimeValue it.end_time (s.start_time.getD 0) = Except.ok et ∧
      s2.minute_segments.getLast? = some (mkSegment c s et) := by
  unfold create_segment at h
  rcases hev : endTimeValue it.end_time (s.start_time.getD 0) with e | et
  · rw [hev] at h
    simp at h
  · rw [hev] at h
    simp only [] at h
    refine ⟨et, rfl, ?_⟩
    split at h
    · simp only [Except.ok.injEq] at h
      subst h
      exact pushBucket_last s _ _
    · split at h
      · simp only [Except.ok.injEq] at h
        subst h
        exact pushBucket_last s _ _
      · split at h
        · cases h
        · simp only [Except.ok.injEq] at h
          subst h
          exact pushBucket_last s _ _

theorem create_segment_c3 {c : Bool} {s : ScanState} {it : Item}
    {remaining : List Item} {s2 : ScanState}
    (h : create_segment c s it remaining = Except.ok s2)
    (hC : ∀ g ∈ s.segments, ∀ sg ∈ g.segments, msTruncated sg)
    (hD : ∀ sg ∈ s.minute_segments, msTruncated sg) :
    (∀ g ∈ s2.segments, ∀ sg ∈ g.segments, msTruncated sg) ∧
    (∀ sg ∈ s2.minute_segments, msTruncated sg) := by
  have hseg : ∀ et : ℚ, msTruncated (mkSegment c s et) :=
    fun et => ⟨s.sentence_start_time.getD 0, et, rfl, rfl⟩
  unfold create_segment at h
  rcases hev : endTimeValue it.end_time (s.start_time.getD 0) with e | et
  · rw [hev] at h
    simp at h
  · rw [hev] at h
    simp only [] at h
    split at h
    · simp only [Except.ok.injEq] at h
      subst h
      exact ⟨(@pushBucket_pred _ _ _ (mkSegment c s et) hC hD (hseg et)).1,
        (@pushBucket_pred _ _ _ (mkSegment c s et) hC hD (hseg et)).2⟩
    · split at h
      · simp only [Except.ok.injEq] at h
        subst h
        exact ⟨(@pushBucket_pred _ _ _ (mkSegment c s et) hC hD (hseg et)).1,
          (@pushBucket_pred _ _ _ (mkSegment c s et) hC hD (hseg et)).2⟩
      · split at h
        · cases h
        · simp only [Except.ok.injEq] at h
          subst h
          exact ⟨(@pushBucket_pred _ _ _ (mkSegment c s et) hC hD (hseg et)).1,
            (@pushBucket_pred _ _ _ (mkSegment c s et) hC hD (hseg et)).2⟩

theorem stepFn_c3 {c : Bool} {s : ScanState} {it : Item} {rest : List Item}
    {s1 : ScanState} {rem : List Item}
    (h : stepFn c s it rest = Except.ok (s1, rem))
    (hC : ∀ g ∈ s.segments, ∀ sg ∈ g.segments, msTruncated sg)
    (hD : ∀ sg ∈ s.minute_segments, msTruncated sg) :
    (∀ g ∈ s1.segments, ∀ sg ∈ g.segments, msTruncated sg) ∧
    (∀ sg ∈ s1.minute_segments, msTruncated sg) := by
  unfold stepFn at h
  split at h
  · cases h
  · rename_i hwp
    obtain ⟨_, hsegs, hmins⟩ := wordPhase_c4 hwp
    split at h
    · cases h
    · split at h
      · split at h
        · cases h
        · rename_i hcs
          simp only [Except.ok.injEq, Prod.mk.injEq] at h
          obtain ⟨rfl, rfl⟩ := h
          exact create_segment_c3 hcs (by rw [hsegs]; exact hC) (by rw [hmins]; exact hD)
      · simp only [Except.ok.injEq, Prod.mk.injEq] at h
        obtain ⟨rfl, rfl⟩ := h
        exact ⟨by rw [hsegs]; exact hC, by rw [hmins]; exact hD⟩

theorem finalize_c3 {c : Bool} {last : Option Item} {s : ScanState}
    {out : List MinuteSegment}
    (h : finalize c last s = Except.ok out)
    (hC : ∀ g ∈ s.segments, ∀ sg ∈ g.segments, msTruncated sg)
    (hD : ∀ sg ∈ s.minute_segments, msTruncated sg) :
    ∀ g ∈ out, ∀ sg ∈ g.segments, msTruncated sg := by
  unfold finalize at h
  split at h
  · simp only [Except.ok.injEq] at h
    subst h
    exact flushBuckets_pred hC hD
  · rcases he : endTimeValue (lastEndTime last) (s.sentence_start_time.getD 0) with e | et
    · simp [he] at h
    · simp only [he, Except.ok.injEq] at h
      subst h
      exact flushBuckets_pred
        (@pushBucket_pred _ _ _ (mkSegment c s et) hC hD
          ⟨s.sentence_start_time.getD 0, et, rfl, rfl⟩).1
        (@pushBucket_pred _ _ _ (mkSegment c s et) hC hD
          ⟨s.sentence_start_time.getD 0, et, rfl, rfl⟩).2

theorem scanAux_c3 (c : Bool) (last : Option Item) :
    ∀ (fuel : ℕ) (s : ScanState) (l : List Item) (out : List MinuteSegment),
      scanAux c last fuel s l = Except.ok out →
      (∀ g ∈ s.segments, ∀ sg ∈ g.segments, msTruncated sg) →
      (∀ sg ∈ s.minute_segments, msTruncated sg) →
      ∀ g ∈ out, ∀ sg ∈ g.segments, msTruncated sg := by
  intro fuel
  induction fuel with
  | zero =>
    intro s l out h hC hD
    cases l with
    | nil => exact finalize_c3 h hC hD
    | cons a t => cases h
  | succ f ih =>
    intro s l out h hC hD
    cases l with
    | nil => exact finalize_c3 h hC hD
    | cons a t =>
      rw [scanAux] at h
      rcases hstep : stepFn c s a t with e | ⟨s1, rem⟩
      · rw [hstep] at h; cases h
      · rw [hstep] at h
        exact ih s1 rem out h (stepFn_c3 hstep hC hD).1 (stepFn_c3 hstep hC hD).2

/-- C3 (amended).  (a) In every successful run, every finalized
sentence's `StartMs` and `EndMs` equal Python `int()` truncations
(`pyInt`, truncation toward zero — not `round`) of a source time times
1000.  (b) Whenever mid-stream emission (`create_segment`) succeeds, the
segment just appended to the open bucket has
`StartMs = int(sentence_start_time * 1000)` and `EndMs = int(et * 1000)`,
where `et` is the parsed `end_time` of the item at which the boundary
fired or, when that field is absent, the loop's `start_time` variable
(the most recent Word token's parsed start) — not
`sentence_start_time`. -/
theorem c3_amended :
    (∀ (c : Bool) (items : List Item) (out : List MinuteSegment),
        process_transcript_data c items = Except.ok out →
        ∀ g ∈ out, ∀ sg ∈ g.segments,
          ∃ st et : ℚ, sg.StartMs = pyInt (st * 1000) ∧ sg.EndMs = pyInt (et * 1000)) ∧
    (∀ (c : Bool) (s : ScanState) (it : Item) (remaining : List Item) (s2 : ScanState),
        create_segment c s it remaining = Except.ok s2 →
        ∃ seg et, s2.minute_segments.getLast? = some seg ∧
          seg.StartMs = pyInt (s.sentence_start_time.getD 0 * 1000) ∧
          seg.EndMs = pyInt (et * 1000) ∧
          (pyFloat it.end_time = Except.ok et ∨
            (it.end_time = TimeVal.absent ∧ et = s.start_time.getD 0))) := by
  constructor
  · intro c items out h
    exact scanAux_c3 c items.getLast? items.length initState items out h
      (by intro g hg; cases hg) (by intro sg hsg; cases hsg)
  · intro c s it remaining s2 h
    obtain ⟨et, hev, hlast⟩ := create_segment_emitted h
    refine ⟨mkSegment c s et, et, hlast, rfl, rfl, ?_⟩
    cases hte : it.end_time with
    | absent =>
      right
      refine ⟨rfl, ?_⟩
      rw [hte] at hev
      simp only [endTimeValue, Except.ok.injEq] at hev
      exact hev.symm
    | bad =>
      rw [hte] at hev
      cases hev
    | val q =>
      left
      rw [hte] at hev
      simp only [endTimeValue, Except.ok.injEq] at hev
      rw [pyFloat, hev]

/-- Witness for `c3_amended`: part (a) at the two-Word fallback input of
the counterexample, part (b) at a concrete state with
`sentence_start_time = 0` (absent, `getD 0`), `start_time = 7` and an
item with absent `end_time`, exercising the `start_time` fallback. -/
theorem c3_amended_witness :
    (∃ st et : ℚ,
        (⟨0, 10000, "a b", "Speaker 1", ["a", "b"], some "spk_0"⟩ :
          TranscriptionSegment).StartMs = pyInt (st * 1000) ∧
        (⟨0, 10000, "a b", "Speaker 1", ["a", "b"], some "spk_0"⟩ :
          TranscriptionSegment).EndMs = pyInt (et * 1000)) ∧
    (∃ seg et, ([⟨0, 7000, "w", "Speaker 1", ["w"], none⟩] :
          List TranscriptionSegment).getLast? = some seg ∧
        seg.StartMs = pyInt ((0 : ℚ) * 1000) ∧
        seg.EndMs = pyInt (et * 1000) ∧
        (pyFloat TimeVal.absent = Except.ok et ∨
          (TimeVal.absent = TimeVal.absent ∧ et = (7 : ℚ)))) := by
  constructor
  · refine c3_amended.1 false [word 0 "a", word 10 "b"]
      [⟨0, [⟨0, 10000, "a b", "Speaker 1", ["a", "b"], some "spk_0"⟩]⟩] ?_
      ⟨0, [⟨0, 10000, "a b", "Speaker 1", ["a", "b"], some "spk_0"⟩]⟩
      (List.mem_singleton.mpr rfl)
      ⟨0, 10000, "a b", "Speaker 1", ["a", "b"], some "spk_0"⟩
      (List.mem_singleton.mpr rfl)
    norm_num +decide [word, process_transcript_data, scanAux, stepFn, wordPhase,
      should_create_segment, create_segment, mkSegment, pushBucket, speakerIdOf,
      mapLookup, openSentence, appendWord, endTimeValue, finalize, flushBuckets,
      pyFloat, pyInt, initState, isSentenceEnd]
  · refine c3_amended.2 false ⟨[], -1, [], 1, [], ["w"], none, none, some 7⟩
      ⟨false, TimeVal.val 7, TimeVal.absent, ["w"], none⟩ []
      ⟨[], 0, [⟨0, 7000, "w", "Speaker 1", ["w"], none⟩], 1, [], [], none, none, some 7⟩ ?_
    norm_num +decide [create_segment, mkSegment, pushBucket, endTimeValue,
      speakerIdOf, pyInt]

/-! ## C8 — minute buckets

Sentences open at item start times, which are non-decreasing under the
hypothesis, so the sequence of emission minute indices
`int(sentence_start_time / 60)` is non-decreasing; a bucket is closed
exactly when the minute index strictly increases, and only non-empty
buckets are appended (lines 375–380, 409–414, 423–424). -/

theorem pyInt_nonneg {q : ℚ} (h : 0 ≤ q) : 0 ≤ pyInt q := by
  unfold pyInt
  rw [if_pos h]
  exact Int.le_floor.mpr (by exact_mod_cast h)

theorem pyInt_mono_nonneg {x y : ℚ} (hx : 0 ≤ x) (hxy : x ≤ y) :
    pyInt x ≤ pyInt y := by
  unfold pyInt
  rw [if_pos hx, if_pos (le_trans hx hxy)]
  exact Int.floor_le_floor hxy

theorem pyInt_div60_nonneg {q : ℚ} (h : 0 ≤ q) : 0 ≤ pyInt (q / 60) :=
  pyInt_nonneg (by positivity)

theorem pyInt_div60_mono {x y : ℚ} (hx : 0 ≤ x) (hxy : x ≤ y) :
    pyInt (x / 60) ≤ pyInt (y / 60) :=
  pyInt_mono_nonneg (by positivity) (by
    exact (div_le_div_iff_of_pos_right (by norm_num)).mpr hxy)

/-- All non-punctuation items in `l` have parseable start times that are
at least `t` and non-decreasing left to right. -/
def timesSortedFrom (t : ℚ) : List Item → Prop
  | [] => True
  | it :: rest =>
    if it.is_punctuation = true then timesSortedFrom t rest
    else ∃ q, it.start_time = TimeVal.val q ∧ t ≤ q ∧ timesSortedFrom q rest

/-- Invariant for C8, parameterized by a time bound `t`: every future
start time is at least `t`, the open sentence (if any) started at or
before `t`, the current bucket minute is `-1` or consistent with both `t`
and the open sentence, the banked groups have strictly increasing
non-negative minutes and non-empty segment lists, and the open bucket is
coherent with the banked groups. -/
def c8InvAt (t : ℚ) (s : ScanState) (l : List Item) : Prop :=
  0 ≤ t ∧ timesSortedFrom t l ∧
  (∀ u, s.sentence_start_time = some u → 0 ≤ u ∧ u ≤ t) ∧
  (s.current_sentence ≠ [] → s.sentence_start_time ≠ none) ∧
  (s.current_minute = -1 ∨
    (0 ≤ s.current_minute ∧ s.current_minute ≤ pyInt (t / 60) ∧
      ∀ u, s.sentence_start_time = some u → s.current_minute ≤ pyInt (u / 60))) ∧
  List.Chain' (· < ·) (s.segments.map (fun g => g.minute)) ∧
  (∀ g ∈ s.segments, g.segments ≠ [] ∧ 0 ≤ g.minute) ∧
  (s.minute_segments = [] → s.segments = []) ∧
  (s.minute_segments ≠ [] → 0 ≤ s.current_minute ∧
    ∀ g ∈ s.segments, g.minute < s.current_minute)

def c8Inv (s : ScanState) (l : List Item) : Prop :=
  ∃ t, c8InvAt t s l

theorem pushBucket_current_minute (s : ScanState) (cim : ℤ) (seg : TranscriptionSegment) :
    (pushBucket s cim seg).current_minute = cim := by
  unfold pushBucket
  split
  · split <;> rfl
  · rfl

/-- Bucket coherence through a push whose minute index `cim` is at least
the current bucket minute. -/
theorem pushBucket_c8 {s : ScanState} {cim : ℤ} (seg : TranscriptionSegment)
    (hmin : s.current_minute = -1 ∨ s.current_minute ≤ cim)
    (hG1 : List.Chain' (· < ·) (s.segments.map (fun g => g.minute)))
    (hG2 : ∀ g ∈ s.segments, g.segments ≠ [] ∧ 0 ≤ g.minute)
    (hG3 : s.minute_segments = [] → s.segments = [])
    (hG4 : s.minute_segments ≠ [] → 0 ≤ s.current_minute ∧
      ∀ g ∈ s.segments, g.minute < s.current_minute) :
    (pushBucket s cim seg).minute_segments ≠ [] ∧
    List.Chain' (· < ·) ((pushBucket s cim seg).segments.map (fun g => g.minute)) ∧
    (∀ g ∈ (pushBucket s cim seg).segments, g.segments ≠ [] ∧ 0 ≤ g.minute) ∧
    (∀ g ∈ (pushBucket s cim seg).segments, g.minute < cim) := by
  unfold pushBucket
  split
  · rename_i hcond
    split
    · rename_i hempty
      have hsegnil : s.segments = [] := hG3 (by simpa [List.isEmpty_iff] using hempty)
      simp only [hsegnil]
      refine ⟨by simp, by simp, by simp, by simp⟩
    · rename_i hempty
      have hms : s.minute_segments ≠ [] := by
        simpa [List.isEmpty_iff] using hempty
      obtain ⟨hcm0, hlt⟩ := hG4 hms
      have hcmlt : s.current_minute < cim := by
        rcases hmin with hm1 | hm2
        · omega
        · rcases lt_or_eq_of_le hm2 with h | h
          · exact h
          · exact absurd h hcond.2
      have hlastlt : ∀ x ∈ (s.segments.map (fun g => g.minute)).getLast?, x < s.current_minute := by
        intro x hx
        obtain ⟨hne, hxl⟩ := List.mem_getLast?_eq_getLast hx
        have hmem : x ∈ s.segments.map (fun g => g.minute) := hxl ▸ List.getLast_mem hne
        obtain ⟨g, hg, rfl⟩ := List.mem_map.mp hmem
        exact hlt g hg
      refine ⟨by simp, ?_, ?_, ?_⟩
      · simp only [List.map_append, List.map_cons, List.map_nil]
        rw [List.chain'_append]
        refine ⟨hG1, by simp, ?_⟩
        intro x hx y hy
        simp only [List.head?_cons, Option.mem_def, Option.some.injEq] at hy
        subst hy
        exact hlastlt x hx
      · intro g hg
        simp only [List.mem_append, List.mem_singleton] at hg
        rcases hg with hg | hg
        · exact hG2 g hg
        · rw [hg]
          exact ⟨hms, hcm0⟩
      · intro g hg
        simp only [List.mem_append, List.mem_singleton] at hg
        rcases hg with hg | hg
        · exact lt_trans (hlt g hg) hcmlt
        · rw [hg]
          exact hcmlt
  · rename_i hcond
    constructor
    · simp
    · have hnoflush : ∀ g ∈ s.segments, g.minute < cim := by
        intro g hg
        rcases hmsnil : s.minute_segments with _ | ⟨a, t⟩
        · rw [hG3 hmsnil] at hg
          cases hg
        · obtain ⟨hcm0, hlt⟩ := hG4 (by rw [hmsnil]; simp)
          have : s.current_minute = cim := by
            by_cases h1 : s.current_minute = -1
            · omega
            · by_cases h2 : s.current_minute = cim
              · exact h2
              · exact absurd ⟨h1, h2⟩ hcond
          rw [← this]
          exact hlt g hg
      exact ⟨hG1, hG2, hnoflush⟩

theorem openSentence_more (s : ScanState) (st : ℚ) (spk : String) :
    (openSentence s st spk).current_minute = s.current_minute ∧
    ((openSentence s st spk).sentence_start_time ≠ none) ∧
    (∀ u, (openSentence s st spk).sentence_start_time = some u →
      u = st ∨ s.sentence_start_time = some u) := by
  unfold openSentence
  split
  · refine ⟨rfl, by simp, ?_⟩
    intro u hu
    simp only [] at hu
    simp only [Option.some.injEq] at hu
    exact Or.inl hu.symm
  · rename_i hne
    exact ⟨rfl, hne, fun u hu => Or.inr hu⟩

theorem wordPhase_c8 {s : ScanState} {it : Item} {rest : List Item}
    {sw : ScanState} {rem : List Item}
    (h : wordPhase s it rest = Except.ok (sw, rem))
    (hinv : c8Inv s (it :: rest)) : c8Inv sw rem := by
  obtain ⟨t, ht0, hts, hsst, hG7, hG5, hG1, hG2, hG3, hG4⟩ := hinv
  unfold wordPhase at h
  split at h
  · rename_i hp
    simp only [Except.ok.injEq, Prod.mk.injEq] at h
    obtain ⟨rfl, rfl⟩ := h
    refine ⟨t, ht0, ?_, hsst, hG7, hG5, hG1, hG2, hG3, hG4⟩
    simpa [timesSortedFrom, hp] using hts
  · rename_i hp
    split at h
    · cases h
    · rename_i st0 hst
      have hts2 : ∃ q, it.start_time = TimeVal.val q ∧ t ≤ q ∧ timesSortedFrom q rest := by
        simpa [timesSortedFrom, hp] using hts
      obtain ⟨q, hsq, htq, hrest⟩ := hts2
      rw [hsq] at hst
      simp only [pyFloat, Except.ok.injEq] at hst
      subst hst
      have hq0 : 0 ≤ q := le_trans ht0 htq
      have hof := openSentence_fields s q (it.speaker_label.getD "spk_0")
      have hom := openSentence_more s q (it.speaker_label.getD "spk_0")
      have hkey : ∀ (cs : List String) (l2 : List Item), timesSortedFrom q l2 →
          c8InvAt q { openSentence s q (it.speaker_label.getD "spk_0") with
            start_time := some q, current_sentence := cs } l2 := by
        intro cs l2 hl2
        refine ⟨hq0, hl2, ?_, ?_, ?_, ?_, ?_, ?_, ?_⟩
        · intro u hu
          rcases hom.2.2 u hu with rfl | hold
          · exact ⟨hq0, le_refl _⟩
          · obtain ⟨h1, h2⟩ := hsst u hold
            exact ⟨h1, le_trans h2 htq⟩
        · intro _
          exact hom.2.1
        · simp only [hom.1]
          rcases hG5 with h1 | ⟨h1, h2, h3⟩
          · exact Or.inl h1
          · refine Or.inr ⟨h1, le_trans h2 (pyInt_div60_mono ht0 htq), ?_⟩
            intro u hu
            rcases hom.2.2 u hu with rfl | hold
            · exact le_trans h2 (pyInt_div60_mono ht0 htq)
            · exact h3 u hold
        · simpa [hof.1] using hG1
        · simpa [hof.1] using hG2
        · simpa [hof.2.1, hof.1] using hG3
        · simpa [hof.2.1, hof.1, hom.1] using hG4
      split at h
      · simp only [Except.ok.injEq, Prod.mk.injEq] at h
        obtain ⟨rfl, rfl⟩ := h
        exact ⟨q, hkey _ _ hrest⟩
      · split at h
        · simp only [Except.ok.injEq, Prod.mk.injEq] at h
          obtain ⟨rfl, rfl⟩ := h
          exact ⟨q, hkey _ _ hrest⟩
        · split at h
          · split at h
            · cases h
            · simp only [Except.ok.injEq, Prod.mk.injEq] at h
              obtain ⟨rfl, rfl⟩ := h
              refine ⟨q, hkey _ _ ?_⟩
              rw [timesSortedFrom] at hrest
              split at hrest
              · exact hrest
              · rename_i hcontra
                exact absurd (by assumption) hcontra
          · simp only [Except.ok.injEq, Prod.mk.injEq] at h
            obtain ⟨rfl, rfl⟩ := h
            exact ⟨q, hkey _ _ hrest⟩

theorem create_segment_c8 {c : Bool} {s : ScanState} {it : Item}
    {remaining : List Item} {s2 : ScanState} {t : ℚ}
    (h : create_segment c s it remaining = Except.ok s2)
    (hinv : c8InvAt t s remaining)
    (hw : s.current_sentence ≠ [])
    (hshape : remaining = [] ∨ ∃ nx r2, remaining = nx :: r2 ∧ nx.is_punctuation = false) :
    c8Inv s2 remaining := by
  obtain ⟨ht0, hts, hsst, hG7, hG5, hG1, hG2, hG3, hG4⟩ := hinv
  rcases hu : s.sentence_start_time with _ | u
  · exact absurd hu (hG7 hw)
  · obtain ⟨hu0, hut⟩ := hsst u hu
    have hgetD : s.sentence_start_time.getD 0 = u := by rw [hu]; rfl
    have hmin : s.current_minute = -1 ∨
        s.current_minute ≤ pyInt (s.sentence_start_time.getD 0 / 60) := by
      rcases hG5 with h1 | ⟨_, _, h3⟩
      · exact Or.inl h1
      · exact Or.inr (by rw [hgetD]; exact h3 u hu)
    have hcim0 : 0 ≤ pyInt (s.sentence_start_time.getD 0 / 60) := by
      rw [hgetD]
      exact pyInt_div60_nonneg hu0
    unfold create_segment at h
    rcases hev : endTimeValue it.end_time (s.start_time.getD 0) with e | et
    · rw [hev] at h
      simp at h
    · rw [hev] at h
      simp only [] at h
      have hpb2 := @pushBucket_c8 s _ (mkSegment c s et) hmin hG1 hG2 hG3 hG4
      have hpcm := pushBucket_current_minute s
        (pyInt (s.sentence_start_time.getD 0 / 60)) (mkSegment c s et)
      split at h
      · -- remaining = []
        simp only [Except.ok.injEq] at h
        subst h
        refine ⟨u, hu0, trivial, ?_, ?_, ?_, hpb2.2.1, hpb2.2.2.1, ?_, ?_⟩
        · intro v hv
          cases hv
        · intro hcs
          simp at hcs
        · refine Or.inr ⟨?_, ?_, ?_⟩
          · simpa [hpcm] using hcim0
          · simp only [hpcm, hgetD]
            exact le_refl _
          · intro v hv
            cases hv
        · intro hms
          exact absurd (by simpa using hms) hpb2.1
        · intro _
          refine ⟨by simpa [hpcm] using hcim0, ?_⟩
          simpa [hpcm] using hpb2.2.2.2
      · rename_i nx r2
        split at h
        · rename_i hnp
          exfalso
          rcases hshape with hnil | ⟨nx2, r22, heq, hnp2⟩
          · cases hnil
          · simp only [List.cons.injEq] at heq
            rw [← heq.1] at hnp2
            rw [hnp2] at hnp
            cases hnp
        · rename_i hnp
          rcases hq : pyFloat nx.start_time with e | q
          · rw [hq] at h
            cases h
          · rw [hq] at h
            simp only [Except.ok.injEq] at h
            subst h
            have hts2 : ∃ q2, nx.start_time = TimeVal.val q2 ∧ t ≤ q2 ∧
                timesSortedFrom q2 r2 := by
              simpa [timesSortedFrom, hnp] using hts
            obtain ⟨q2, hsq2, htq2, hr2⟩ := hts2
            rw [hsq2] at hq
            simp only [pyFloat, Except.ok.injEq] at hq
            subst hq
            have hq20 : 0 ≤ q2 := le_trans ht0 htq2
            have hucim : pyInt (s.sentence_start_time.getD 0 / 60) ≤ pyInt (q2 / 60) := by
              rw [hgetD]
              exact pyInt_div60_mono hu0 (le_trans hut htq2)
            refine ⟨q2, hq20, ?_, ?_, ?_, ?_, hpb2.2.1, hpb2.2.2.1, ?_, ?_⟩
            · rw [timesSortedFrom]
              simp only [hnp]
              exact ⟨q2, hsq2, le_refl _, hr2⟩
            · intro v hv
              simp only [Option.some.injEq] at hv
              subst hv
              exact ⟨hq20, le_refl _⟩
            · intro hcs
              simp at hcs
            · refine Or.inr ⟨by simpa [hpcm] using hcim0, by simpa [hpcm] using hucim, ?_⟩
              intro v hv
              simp only [Option.some.injEq] at hv
              subst hv
              simpa [hpcm] using hucim
            · intro hms
              exact absurd (by simpa using hms) hpb2.1
            · intro _
              refine ⟨by simpa [hpcm] using hcim0, ?_⟩
              simpa [hpcm] using hpb2.2.2.2

theorem stepFn_c8 {c : Bool} {s : ScanState} {it : Item} {rest : List Item}
    {s1 : ScanState} {rem : List Item}
    (h : stepFn c s it rest = Except.ok (s1, rem))
    (hinv : c8Inv s (it :: rest)) : c8Inv s1 rem := by
  unfold stepFn at h
  split at h
  · cases h
  · rename_i hwp
    have hinvw := wordPhase_c8 hwp hinv
    split at h
    · cases h
    · rename_i b hb
      split at h
      · rename_i hcond
        split at h
        · cases h
        · rename_i hcs
          simp only [Except.ok.injEq, Prod.mk.injEq] at h
          obtain ⟨rfl, rfl⟩ := h
          have hb2 : b = true := by
            have h2 := hcond
            simp only [Bool.and_eq_true] at h2
            exact h2.1
          subst hb2
          obtain ⟨t, hinvAt⟩ := hinvw
          refine create_segment_c8 hcs hinvAt ?_ (should_true_shape hb).2
          exact (should_true_shape hb).1
      · simp only [Except.ok.injEq, Prod.mk.injEq] at h
        obtain ⟨rfl, rfl⟩ := h
        exact hinvw

theorem flushBuckets_c8 {s : ScanState}
    (hG1 : List.Chain' (· < ·) (s.segments.map (fun g => g.minute)))
    (hG2 : ∀ g ∈ s.segments, g.segments ≠ [] ∧ 0 ≤ g.minute)
    (hG4 : s.minute_segments ≠ [] → 0 ≤ s.current_minute ∧
      ∀ g ∈ s.segments, g.minute < s.current_minute) :
    List.Chain' (· < ·) ((flushBuckets s).map (fun g => g.minute)) ∧
    ∀ g ∈ flushBuckets s, g.segments ≠ [] ∧ 0 ≤ g.minute := by
  unfold flushBuckets
  split
  · exact ⟨hG1, hG2⟩
  · rename_i hms
    obtain ⟨hcm0, hlt⟩ := hG4 (by simpa [List.isEmpty_iff] using hms)
    constructor
    · simp only [List.map_append, List.map_cons, List.map_nil]
      rw [List.chain'_append]
      refine ⟨hG1, by simp, ?_⟩
      intro x hx y hy
      simp only [List.head?_cons, Option.mem_def, Option.some.injEq] at hy
      subst hy
      obtain ⟨hne, hxl⟩ := List.mem_getLast?_eq_getLast hx
      have hmem : x ∈ s.segments.map (fun g => g.minute) := hxl ▸ List.getLast_mem hne
      obtain ⟨g, hg, rfl⟩ := List.mem_map.mp hmem
      exact hlt g hg
    · intro g hg
      simp only [List.mem_append, List.mem_singleton] at hg
      rcases hg with hg | hg
      · exact hG2 g hg
      · rw [hg]
        exact ⟨by simpa [List.isEmpty_iff] using hms, hcm0⟩

theorem finalize_c8 {c : Bool} {last : Option Item} {s : ScanState}
    {out : List MinuteSegment}
    (h : finalize c last s = Except.ok out) (hinv : c8Inv s []) :
    List.Chain' (· < ·) (out.map (fun g => g.minute)) ∧
    ∀ g ∈ out, g.segments ≠ [] ∧ 0 ≤ g.minute := by
  obtain ⟨t, ht0, _, hsst, hG7, hG5, hG1, hG2, hG3, hG4⟩ := hinv
  unfold finalize at h
  split at h
  · simp only [Except.ok.injEq] at h
    subst h
    exact flushBuckets_c8 hG1 hG2 hG4
  · rename_i hcs
    have hw : s.current_sentence ≠ [] := by
      simpa [List.isEmpty_iff] using hcs
    rcases hu : s.sentence_start_time with _ | u
    · exact absurd hu (hG7 hw)
    · obtain ⟨hu0, _⟩ := hsst u hu
      have hgetD : s.sentence_start_time.getD 0 = u := by rw [hu]; rfl
      have hmin : s.current_minute = -1 ∨
          s.current_minute ≤ pyInt (s.sentence_start_time.getD 0 / 60) := by
        rcases hG5 with h1 | ⟨_, _, h3⟩
        · exact Or.inl h1
        · exact Or.inr (by rw [hgetD]; exact h3 u hu)
      have hcim0 : 0 ≤ pyInt (s.sentence_start_time.getD 0 / 60) := by
        rw [hgetD]
        exact pyInt_div60_nonneg hu0
      rcases he : endTimeValue (lastEndTime last) (s.sentence_start_time.getD 0) with e | et
      · simp [he] at h
      · simp only [he, Except.ok.injEq] at h
        subst h
        have hpb := @pushBucket_c8 s _ (mkSegment c s et) hmin hG1 hG2 hG3 hG4
        have hpcm := pushBucket_current_minute s
          (pyInt (s.sentence_start_time.getD 0 / 60)) (mkSegment c s et)
        refine flushBuckets_c8 hpb.2.1 hpb.2.2.1 ?_
        intro _
        refine ⟨by simpa [hpcm] using hcim0, ?_⟩
        simpa [hpcm] using hpb.2.2.2

theorem scanAux_c8 (c : Bool) (last : Option Item) :
    ∀ (fuel : ℕ) (s : ScanState) (l : List Item) (out : List MinuteSegment),
      scanAux c last fuel s l = Except.ok out → c8Inv s l →
      List.Chain' (· < ·) (out.map (fun g => g.minute)) ∧
      ∀ g ∈ out, g.segments ≠ [] ∧ 0 ≤ g.minute := by
  intro fuel
  induction fuel with
  | zero =>
    intro s l out h hinv
    cases l with
    | nil => exact finalize_c8 h hinv
    | cons a t => cases h
  | succ f ih =>
    intro s l out h hinv
    cases l with
    | nil => exact finalize_c8 h hinv
    | cons a t =>
      rw [scanAux] at h
      rcases hstep : stepFn c s a t with e | ⟨s1, rem⟩
      · rw [hstep] at h; cases h
      · rw [hstep] at h
        exact ih s1 rem out h (stepFn_c8 hstep hinv)

/-- C8: for every input whose Word tokens have non-negative, non-decreasing
(and parseable) start times, the minute indices of the emitted
MinuteSegment groups are strictly increasing and non-negative across the
output, every emitted group contains at least one sentence, and minutes
with no sentences are simply omitted (the bucketer only appends non-empty
buckets). -/
theorem c8_minutes :
    ∀ (is_chinese : Bool) (items : List Item) (out : List MinuteSegment),
      process_transcript_data is_chinese items = Except.ok out →
      timesSortedFrom 0 items →
      List.Chain' (· < ·) (out.map (fun g => g.minute)) ∧
      ∀ g ∈ out, 0 ≤ g.minute ∧ g.segments ≠ [] := by
  intro c items out h hsorted
  have hinv0 : c8Inv initState items := by
    refine ⟨0, le_refl 0, hsorted, ?_, ?_, ?_, ?_, ?_, ?_, ?_⟩
    · intro u hu
      cases hu
    · intro hcs
      exact absurd rfl hcs
    · exact Or.inl rfl
    · simp [initState]
    · intro g hg
      cases hg
    · intro _
      rfl
    · intro hms
      exact absurd rfl hms
  have hmain := scanAux_c8 c items.getLast? items.length initState items out h hinv0
  exact ⟨hmain.1, fun g hg => ⟨(hmain.2 g hg).2, (hmain.2 g hg).1⟩⟩

/-- Witness for `c8_minutes` at a one-word input. -/
theorem c8_minutes_witness :
    List.Chain' (· < ·) (([⟨0, [⟨0, 0, "hi", "Speaker 1", ["hi"], some "spk_0"⟩]⟩] :
      List MinuteSegment).map (fun g => g.minute)) := by
  refine (c8_minutes false [word 0 "hi"]
    [⟨0, [⟨0, 0, "hi", "Speaker 1", ["hi"], some "spk_0"⟩]⟩] ?_ ?_).1
  · norm_num +decide [word, process_transcript_data, scanAux, stepFn, wordPhase,
      should_create_segment, create_segment, mkSegment, pushBucket, speakerIdOf,
      mapLookup, openSentence, appendWord, endTimeValue, finalize, flushBuckets,
      pyFloat, pyInt, initState, isSentenceEnd]
  · rw [timesSortedFrom]
    simp only [word, if_neg]
    exact ⟨0, rfl, le_refl 0, trivial⟩

/-! ## C7 — idempotence of the text normalizer

Claim C7 asserts `clean_chinese_text (clean_chinese_text s) = clean_chinese_text s`
for every string `s`.  The unicode-escape phase refutes this: a decoded
backslash produced by the first pass can form a new escape sequence for
the second pass.  Restricted to backslash-free strings the property holds:
the escape phase is skipped and the spacing pipeline is idempotent. -/

theorem ws_not_punct {c : Char} (h : pyIsSpace c = true) : isPunctMark c = false := by
  rcases hm : isPunctMark c with _ | _
  · rfl
  · exfalso
    unfold isPunctMark at hm
    simp only [Bool.or_eq_true, beq_iff_eq] at hm
    rcases hm with
      ((((((((((rfl | rfl) | rfl) | rfl) | rfl) | rfl) | rfl) | rfl) | rfl) | rfl) | rfl) | rfl <;>
      exact absurd h (by decide)

theorem ws_not_cjk {c : Char} (h : pyIsSpace c = true) : isCJK c = false := by
  rcases hm : isCJK c with _ | _
  · rfl
  · exfalso
    unfold isCJK at hm
    unfold pyIsSpace at h
    simp only [Bool.and_eq_true, decide_eq_true_eq] at hm
    simp only [Bool.or_eq_true, beq_iff_eq, Bool.and_eq_true, decide_eq_true_eq] at h
    omega

theorem blank_ws : pyIsSpace ' ' = true := by decide

theorem noWsPunct_tail {c : Char} {t : List Char} (h : noWsPunct (c :: t)) : noWsPunct t :=
  List.Chain'.tail h

theorem firstNonWs_not_ws : ∀ {l : List Char} {d : Char},
    firstNonWs l = some d → pyIsSpace d = false := by
  intro l
  induction l with
  | nil => intro d h; cases h
  | cons c t ih =>
    intro d h
    rw [firstNonWs] at h
    split at h
    · exact ih h
    · rename_i hc
      simp only [Option.some.injEq] at h
      subst h
      simpa using hc

theorem collapse_head_true : ∀ (l : List Char),
    (collapseSpaceGo true l).head? = firstNonWs l := by
  intro l
  induction l with
  | nil => rfl
  | cons c t ih =>
    rw [collapseSpaceGo, firstNonWs]
    split
    · simpa using ih
    · rfl

theorem bnot_true {b : Bool} (h : ¬ b = true) : b = false := by
  cases b
  · rfl
  · exact absurd rfl h

theorem collapse_head_false : ∀ (l : List Char),
    (collapseSpaceGo false l).head? =
      l.head?.map (fun c => if pyIsSpace c then ' ' else c) := by
  intro l
  cases l with
  | nil => rfl
  | cons c t =>
    rw [collapseSpaceGo]
    split
    · rename_i hc
      simp [hc]
    · rename_i hc
      simp [bnot_true hc]

theorem firstNonWs_collapse : ∀ (l : List Char) (b : Bool),
    firstNonWs (collapseSpaceGo b l) = firstNonWs l := by
  intro l
  induction l with
  | nil => intro b; cases b <;> rfl
  | cons c t ih =>
    intro b
    by_cases hc : pyIsSpace c = true
    · have hr : firstNonWs (c :: t) = firstNonWs t := by rw [firstNonWs, if_pos hc]
      rw [hr, collapseSpaceGo, if_pos hc]
      cases b
      · rw [if_neg (by decide)]
        rw [firstNonWs, if_pos blank_ws]
        exact ih true
      · rw [if_pos rfl]
        exact ih true
    · rw [collapseSpaceGo, if_neg hc]
      rw [firstNonWs, if_neg hc, firstNonWs, if_neg hc]

theorem collapse_blank_adj : ∀ (l : List Char) (b : Bool),
    allBlank (collapseSpaceGo b l) ∧ noAdjWs (collapseSpaceGo b l) := by
  intro l
  induction l with
  | nil =>
    intro b
    have hnil : collapseSpaceGo b [] = [] := by cases b <;> rfl
    rw [hnil]
    exact ⟨(by intro c hc h; cases hc), List.chain'_nil⟩
  | cons c t ih =>
    intro b
    by_cases hc : pyIsSpace c = true
    · rw [collapseSpaceGo, if_pos hc]
      cases b
      · rw [if_neg (by decide)]
        refine ⟨?_, ?_⟩
        · intro d hd hdw
          rcases List.mem_cons.mp hd with rfl | hd2
          · rfl
          · exact (ih true).1 d hd2 hdw
        · rw [noAdjWs, List.chain'_cons']
          refine ⟨?_, (ih true).2⟩
          intro d hd hcontra
          rw [collapse_head_true] at hd
          rw [firstNonWs_not_ws hd] at hcontra
          exact absurd hcontra.2 (by simp)
      · rw [if_pos rfl]
        exact ih true
    · rw [collapseSpaceGo, if_neg hc]
      refine ⟨?_, ?_⟩
      · intro d hd hdw
        rcases List.mem_cons.mp hd with rfl | hd2
        · exact absurd hdw (by simp [bnot_true hc])
        · exact (ih false).1 d hd2 hdw
      · rw [noAdjWs, List.chain'_cons']
        refine ⟨?_, (ih false).2⟩
        intro d hd hcontra
        rw [bnot_true hc] at hcontra
        exact absurd hcontra.1 (by simp)

theorem noWsPunct_fnw : ∀ (t : List Char) (c : Char), noWsPunct (c :: t) →
    pyIsSpace c = true → ∀ d, firstNonWs t = some d → isPunctMark d = false := by
  intro t
  induction t with
  | nil => intro c _ _ d hd; cases hd
  | cons e t2 ih =>
    intro c hch hcw d hd
    rw [firstNonWs] at hd
    split at hd
    · rename_i hew
      exact ih e (noWsPunct_tail hch) hew d hd
    · rename_i hew
      simp only [Option.some.injEq] at hd
      rw [← hd]
      rcases hde : isPunctMark e with _ | _
      · rfl
      · exfalso
        have hpair := List.chain'_cons.mp hch
        exact hpair.1 ⟨hcw, hde⟩

theorem collapse_noWsPunct : ∀ (l : List Char) (b : Bool),
    noWsPunct l → noWsPunct (collapseSpaceGo b l) := by
  intro l
  induction l with
  | nil =>
    intro b _
    have hnil : collapseSpaceGo b [] = [] := by cases b <;> rfl
    rw [hnil]
    exact List.chain'_nil
  | cons c t ih =>
    intro b hl
    by_cases hc : pyIsSpace c = true
    · rw [collapseSpaceGo, if_pos hc]
      cases b
      · rw [if_neg (by decide)]
        rw [noWsPunct, List.chain'_cons']
        refine ⟨?_, ih true (noWsPunct_tail hl)⟩
        intro d hd hcontra
        rw [collapse_head_true] at hd
        exact absurd hcontra.2 (by simp [noWsPunct_fnw t c hl hc d hd])
      · rw [if_pos rfl]
        exact ih true (noWsPunct_tail hl)
    · rw [collapseSpaceGo, if_neg hc]
      rw [noWsPunct, List.chain'_cons']
      refine ⟨?_, ih false (noWsPunct_tail hl)⟩
      intro d hd hcontra
      exact absurd hcontra.1 (by simp [bnot_true hc])

theorem wsRun_collapse_false : ∀ (l : List Char),
    wsRunThenCJK (collapseSpaceGo false l) → wsRunThenCJK l := by
  intro l h
  cases l with
  | nil => cases h
  | cons c t =>
    by_cases hc : pyIsSpace c = true
    · rw [collapseSpaceGo, if_pos hc, if_neg (by decide)] at h
      rw [wsRunThenCJK] at h
      rw [wsRunThenCJK]
      refine ⟨hc, ?_⟩
      rw [firstNonWs_collapse t true] at h
      exact h.2
    · rw [collapseSpaceGo, if_neg hc] at h
      rw [wsRunThenCJK] at h
      exact absurd h.1 hc

theorem collapse_noCRC : ∀ (l : List Char) (b : Bool),
    noCRC l → noCRC (collapseSpaceGo b l) := by
  intro l
  induction l with
  | nil =>
    intro b _
    have hnil : collapseSpaceGo b [] = [] := by cases b <;> rfl
    rw [hnil]
    trivial
  | cons c t ih =>
    intro b hl
    rw [noCRC] at hl
    by_cases hc : pyIsSpace c = true
    · rw [collapseSpaceGo, if_pos hc]
      cases b
      · rw [if_neg (by decide)]
        rw [noCRC]
        refine ⟨?_, ih true hl.2⟩
        intro hcjk
        exact absurd hcjk (by decide)
      · rw [if_pos rfl]
        exact ih true hl.2
    · rw [collapseSpaceGo, if_neg hc]
      rw [noCRC]
      refine ⟨?_, ih false hl.2⟩
      intro hcjk hws
      exact hl.1 hcjk (wsRun_collapse_false t hws)

theorem fnw_some_of_mem : ∀ (l : List Char) (d : Char), d ∈ l →
    pyIsSpace d = false → ∃ e, firstNonWs l = some e := by
  intro l
  induction l with
  | nil => intro d hd; cases hd
  | cons c t ih =>
    intro d hd hdw
    by_cases hc : pyIsSpace c = true
    · rw [firstNonWs, if_pos hc]
      rcases List.mem_cons.mp hd with rfl | hd2
      · rw [hc] at hdw; cases hdw
      · exact ih d hd2 hdw
    · exact ⟨c, by rw [firstNonWs, if_neg hc]⟩

theorem collapse_getLast : ∀ (l : List Char) (b : Bool),
    (∀ c, l.getLast? = some c → pyIsSpace c = false) →
    ∀ c, (collapseSpaceGo b l).getLast? = some c → pyIsSpace c = false := by
  intro l
  induction l with
  | nil =>
    intro b _ c hc
    have hnil : collapseSpaceGo b [] = [] := by cases b <;> rfl
    rw [hnil] at hc
    cases hc
  | cons c t ih =>
    intro b hl d hd
    cases t with
    | nil =>
      have hcw : pyIsSpace c = false := hl c rfl
      rw [collapseSpaceGo, if_neg (by simp [hcw])] at hd
      have : collapseSpaceGo false ([] : List Char) = [] := rfl
      rw [this] at hd
      simp only [List.getLast?_singleton, Option.some.injEq] at hd
      rw [← hd]
      exact hcw
    | cons e t2 =>
      have hl2 : ∀ x, (e :: t2).getLast? = some x → pyIsSpace x = false := by
        intro x hx
        exact hl x (by rw [List.getLast?_cons_cons]; exact hx)
      by_cases hc : pyIsSpace c = true
      · rw [collapseSpaceGo, if_pos hc] at hd
        cases b
        · rw [if_neg (by decide)] at hd
          have hyw : pyIsSpace ((e :: t2).getLast (by simp)) = false :=
            hl2 _ (List.getLast?_eq_getLast _ (by simp))
          have hym : (e :: t2).getLast (by simp) ∈ e :: t2 := List.getLast_mem _
          obtain ⟨z, hz⟩ := fnw_some_of_mem (e :: t2) _ hym hyw
          have hne : collapseSpaceGo true (e :: t2) ≠ [] := by
            intro hcon
            rw [← collapse_head_true (e :: t2)] at hz
            rw [hcon] at hz
            cases hz
          obtain ⟨w, ws, hw⟩ := List.exists_cons_of_ne_nil hne
          rw [hw] at hd
          rw [List.getLast?_cons_cons] at hd
          · exact ih true hl2 d (by rw [hw]; exact hd)
        · rw [if_pos rfl] at hd
          exact ih true hl2 d hd
      · rw [collapseSpaceGo, if_neg hc] at hd
        have hne : collapseSpaceGo false (e :: t2) ≠ [] := by
          rw [collapseSpaceGo]
          by_cases he : pyIsSpace e = true
          · rw [if_pos he, if_neg (by decide)]
            simp
          · rw [if_neg he]
            simp
        obtain ⟨w, ws, hw⟩ := List.exists_cons_of_ne_nil hne
        rw [hw] at hd
        rw [List.getLast?_cons_cons] at hd
        exact ih false hl2 d (by rw [hw]; exact hd)

theorem noAdjWs_tail {c : Char} {t : List Char} (h : noAdjWs (c :: t)) : noAdjWs t :=
  List.Chain'.tail h

theorem collapse_noEdgeWs : ∀ (l : List Char),
    noEdgeWs l → noEdgeWs (collapseSpace l) := by
  intro l hl
  refine ⟨?_, ?_⟩
  · intro c hc
    rw [collapseSpace, collapse_head_false] at hc
    cases hh : l.head? with
    | none => rw [hh] at hc; cases hc
    | some e =>
      rw [hh] at hc
      have hew : pyIsSpace e = false := hl.1 e hh
      simp only [Option.map_some', Option.some.injEq] at hc
      rw [← hc, if_neg (by simp [hew])]
      exact hew
  · exact collapse_getLast l false hl.2

theorem collapse_id : ∀ (l : List Char) (b : Bool),
    allBlank l → noAdjWs l →
    (b = true → ∀ c, l.head? = some c → pyIsSpace c = false) →
    collapseSpaceGo b l = l := by
  intro l
  induction l with
  | nil => intro b _ _ _; cases b <;> rfl
  | cons c t ih =>
    intro b hab hadj hside
    have habt : allBlank t := fun d hd hdw => hab d (List.mem_cons_of_mem _ hd) hdw
    by_cases hc : pyIsSpace c = true
    · cases b
      · rw [collapseSpaceGo, if_pos hc, if_neg (by decide)]
        have hcsp : c = ' ' := hab c (List.mem_cons_self _ _) hc
        have hrec : collapseSpaceGo true t = t := by
          apply ih true habt (noAdjWs_tail hadj)
          intro _ d hd
          cases t with
          | nil => cases hd
          | cons e t2 =>
            simp only [List.head?_cons, Option.some.injEq] at hd
            rw [← hd]
            have hpair := (List.chain'_cons.mp hadj).1
            rcases hew : pyIsSpace e with _ | _
            · rfl
            · exact absurd ⟨hc, hew⟩ hpair
        rw [hcsp, hrec]
      · exact absurd hc (by simp [hside rfl c rfl])
    · rw [collapseSpaceGo, if_neg hc]
      congr 1
      exact ih false habt (noAdjWs_tail hadj) (by intro h; cases h)

theorem dropWhile_head_not : ∀ (l : List Char) (c : Char),
    (l.dropWhile pyIsSpace).head? = some c → pyIsSpace c = false := by
  intro l
  induction l with
  | nil => intro c h; cases h
  | cons e t ih =>
    intro c h
    rw [List.dropWhile_cons] at h
    split at h
    · exact ih c h
    · rename_i he
      simp only [List.head?_cons, Option.some.injEq] at h
      rw [← h]
      exact bnot_true he

theorem dropWhile_decomp : ∀ (l : List Char),
    ∃ pre, l = pre ++ l.dropWhile pyIsSpace ∧ ∀ c ∈ pre, pyIsSpace c = true := by
  intro l
  induction l with
  | nil => exact ⟨[], rfl, by intro c hc; cases hc⟩
  | cons e t ih =>
    by_cases he : pyIsSpace e = true
    · obtain ⟨pre, hpre, hws⟩ := ih
      refine ⟨e :: pre, ?_, ?_⟩
      · rw [List.dropWhile_cons, if_pos he, List.cons_append, ← hpre]
      · intro c hc
        rcases List.mem_cons.mp hc with rfl | hc2
        · exact he
        · exact hws c hc2
    · refine ⟨[], ?_, by intro c hc; cases hc⟩
      rw [List.dropWhile_cons, if_neg he, List.nil_append]

theorem fnw_append_some : ∀ (a b : List Char) (d : Char),
    firstNonWs a = some d → firstNonWs (a ++ b) = some d := by
  intro a
  induction a with
  | nil => intro b d h; cases h
  | cons c t ih =>
    intro b d h
    rw [firstNonWs] at h
    rw [List.cons_append, firstNonWs]
    split at h <;> rename_i hc
    · rw [if_pos hc]
      exact ih b d h
    · rw [if_neg hc]
      exact h

theorem wsRun_append : ∀ (a b : List Char),
    wsRunThenCJK a → wsRunThenCJK (a ++ b) := by
  intro a b h
  cases a with
  | nil => cases h
  | cons c t =>
    rw [wsRunThenCJK] at h
    rw [List.cons_append, wsRunThenCJK]
    refine ⟨h.1, ?_⟩
    rcases hf : firstNonWs t with _ | d
    · rw [hf] at h
      exact absurd h.2 (by intro hcon; exact hcon)
    · rw [fnw_append_some t b d hf]
      rw [hf] at h
      exact h.2

theorem noCRC_suffix : ∀ (a b : List Char), noCRC (a ++ b) → noCRC b := by
  intro a
  induction a with
  | nil => intro b h; exact h
  | cons c t ih =>
    intro b h
    rw [List.cons_append, noCRC] at h
    exact ih b h.2

theorem noCRC_left : ∀ (a b : List Char), noCRC (a ++ b) → noCRC a := by
  intro a
  induction a with
  | nil => intro b _; trivial
  | cons c t ih =>
    intro b h
    rw [List.cons_append, noCRC] at h
    rw [noCRC]
    exact ⟨fun hcjk hws => h.1 hcjk (wsRun_append t b hws), ih b h.2⟩

theorem pyStrip_decomp : ∀ (l : List Char),
    ∃ pre post, l = pre ++ pyStrip l ++ post ∧
      (∀ c ∈ pre, pyIsSpace c = true) ∧ (∀ c ∈ post, pyIsSpace c = true) := by
  intro l
  obtain ⟨pre, hpre, hpw⟩ := dropWhile_decomp l
  obtain ⟨pre2, hpre2, hp2w⟩ := dropWhile_decomp (l.dropWhile pyIsSpace).reverse
  refine ⟨pre, pre2.reverse, ?_, hpw, ?_⟩
  · have hm : l.dropWhile pyIsSpace = pyStrip l ++ pre2.reverse := by
      have := congrArg List.reverse hpre2
      rw [List.reverse_reverse, List.reverse_append] at this
      rw [this, pyStrip]
    rw [List.append_assoc, ← hm, ← hpre]
  · intro c hc
    exact hp2w c (List.mem_reverse.mp hc)

theorem strip_noWsPunct (l : List Char) (h : noWsPunct l) : noWsPunct (pyStrip l) := by
  obtain ⟨pre, post, hdec, _, _⟩ := pyStrip_decomp l
  exact List.Chain'.infix h ⟨pre, post, by rw [← hdec]⟩

theorem strip_noAdjWs (l : List Char) (h : noAdjWs l) : noAdjWs (pyStrip l) := by
  obtain ⟨pre, post, hdec, _, _⟩ := pyStrip_decomp l
  exact List.Chain'.infix h ⟨pre, post, by rw [← hdec]⟩

theorem strip_noCRC (l : List Char) (h : noCRC l) : noCRC (pyStrip l) := by
  obtain ⟨pre, post, hdec, _, _⟩ := pyStrip_decomp l
  rw [hdec, List.append_assoc] at h
  exact noCRC_left _ post (noCRC_suffix pre _ h)

theorem strip_noEdgeWs (l : List Char) : noEdgeWs (pyStrip l) := by
  constructor
  · intro c hc
    rw [pyStrip, List.head?_reverse] at hc
    by_cases hy : ((l.dropWhile pyIsSpace).reverse.dropWhile pyIsSpace) = []
    · rw [hy] at hc
      cases hc
    · have hsuf : ((l.dropWhile pyIsSpace).reverse.dropWhile pyIsSpace) <:+
          (l.dropWhile pyIsSpace).reverse := List.dropWhile_suffix pyIsSpace
      obtain ⟨pre2, hpre2⟩ := hsuf
      rw [← List.getLast?_append_of_ne_nil pre2 hy, hpre2] at hc
      rw [← List.head?_reverse, List.reverse_reverse] at hc
      exact dropWhile_head_not l c hc
  · intro c hc
    rw [pyStrip] at hc
    rw [← List.head?_reverse, List.reverse_reverse] at hc
    exact dropWhile_head_not _ c hc

theorem dropWhile_id_of_head (l : List Char)
    (h : ∀ c, l.head? = some c → pyIsSpace c = false) :
    l.dropWhile pyIsSpace = l := by
  cases l with
  | nil => rfl
  | cons c t =>
    rw [List.dropWhile_cons, if_neg (by simp [h c rfl])]

theorem strip_id (l : List Char) (h : noEdgeWs l) : pyStrip l = l := by
  rw [pyStrip, dropWhile_id_of_head l h.1, dropWhile_id_of_head, List.reverse_reverse]
  intro c hc
  rw [List.head?_reverse] at hc
  exact h.2 c hc

theorem fnw_squeeze : ∀ (l : List Char) (st : SqState),
    firstNonWs (squeezeAfterPunctGo st l) = firstNonWs l := by
  intro l
  induction l with
  | nil => intro st; cases st <;> rfl
  | cons c t ih =>
    intro st
    by_cases hc : pyIsSpace c = true
    · have hstep : firstNonWs (c :: t) = firstNonWs t := by rw [firstNonWs, if_pos hc]
      cases st
      · rw [squeezeAfterPunctGo]
        have hnp : isPunctMark c = false := ws_not_punct hc
        rw [firstNonWs, if_pos hc, hstep, hnp]
        simp only [Bool.false_eq_true, if_false]
        exact ih SqState.normal
      · rw [squeezeAfterPunctGo, if_pos hc, firstNonWs, if_pos blank_ws, hstep]
        exact ih SqState.inRun
      · rw [squeezeAfterPunctGo, if_pos hc, hstep]
        exact ih SqState.inRun
    · cases st
      · rw [squeezeAfterPunctGo, firstNonWs, if_neg hc, firstNonWs, if_neg hc]
      · rw [squeezeAfterPunctGo, if_neg hc, firstNonWs, if_neg hc, firstNonWs, if_neg hc]
      · rw [squeezeAfterPunctGo, if_neg hc, firstNonWs, if_neg hc, firstNonWs, if_neg hc]

theorem wsRun_head_ws {c : Char} {t : List Char} (hc : pyIsSpace c = true) :
    wsRunThenCJK (c :: t) ↔ ∃ d, firstNonWs t = some d ∧ isCJK d = true := by
  rw [wsRunThenCJK]
  constructor
  · intro h
    rcases hf : firstNonWs t with _ | d
    · rw [hf] at h
      exact absurd h.2 (by intro hcon; exact hcon)
    · rw [hf] at h
      exact ⟨d, rfl, h.2⟩
  · intro ⟨d, hd, hcjk⟩
    refine ⟨hc, ?_⟩
    rw [hd]
    exact hcjk

theorem wsRun_squeeze : ∀ (l : List Char) (st : SqState),
    wsRunThenCJK (squeezeAfterPunctGo st l) → wsRunThenCJK l := by
  intro l
  induction l with
  | nil =>
    intro st h
    have : squeezeAfterPunctGo st [] = [] := by cases st <;> rfl
    rw [this] at h
    cases h
  | cons c t ih =>
    intro st h
    by_cases hc : pyIsSpace c = true
    · cases st
      · rw [squeezeAfterPunctGo] at h
        rw [wsRunThenCJK] at h ⊢
        refine ⟨hc, ?_⟩
        have : firstNonWs (squeezeAfterPunctGo
            (if isPunctMark c then SqState.afterPunct else SqState.normal) t) = firstNonWs t :=
          fnw_squeeze t _
        rw [this] at h
        exact h.2
      · rw [squeezeAfterPunctGo, if_pos hc] at h
        rw [wsRunThenCJK] at h ⊢
        refine ⟨hc, ?_⟩
        rw [fnw_squeeze t SqState.inRun] at h
        exact h.2
      · rw [squeezeAfterPunctGo, if_pos hc] at h
        have h2 := ih SqState.inRun h
        rw [wsRun_head_ws hc]
        cases t with
        | nil => cases h2
        | cons e t2 =>
          have hew : pyIsSpace e = true := by
            rw [wsRunThenCJK] at h2
            exact h2.1
          rw [firstNonWs, if_pos hew]
          exact (wsRun_head_ws hew).mp h2
    · cases st
      · rw [squeezeAfterPunctGo, wsRunThenCJK] at h
        exact absurd h.1 hc
      · rw [squeezeAfterPunctGo, if_neg hc, wsRunThenCJK] at h
        exact absurd h.1 hc
      · rw [squeezeAfterPunctGo, if_neg hc, wsRunThenCJK] at h
        exact absurd h.1 hc

theorem noCRC_tail {c : Char} {t : List Char} (h : noCRC (c :: t)) : noCRC t :=
  h.2

theorem squeeze_noCRC : ∀ (l : List Char) (st : SqState),
    noCRC l → noCRC (squeezeAfterPunctGo st l) := by
  intro l
  induction l with
  | nil =>
    intro st _
    have : squeezeAfterPunctGo st [] = [] := by cases st <;> rfl
    rw [this]
    trivial
  | cons c t ih =>
    intro st hl
    rw [noCRC] at hl
    by_cases hc : pyIsSpace c = true
    · cases st
      · rw [squeezeAfterPunctGo, noCRC]
        exact ⟨fun hcjk hws => hl.1 hcjk (wsRun_squeeze t _ hws), ih _ hl.2⟩
      · rw [squeezeAfterPunctGo, if_pos hc, noCRC]
        refine ⟨?_, ih SqState.inRun hl.2⟩
        intro hcjk
        exact absurd hcjk (by decide)
      · rw [squeezeAfterPunctGo, if_pos hc]
        exact ih SqState.inRun hl.2
    · cases st
      · rw [squeezeAfterPunctGo, noCRC]
        exact ⟨fun hcjk hws => hl.1 hcjk (wsRun_squeeze t _ hws), ih _ hl.2⟩
      · rw [squeezeAfterPunctGo, if_neg hc, noCRC]
        exact ⟨fun hcjk hws => hl.1 hcjk (wsRun_squeeze t _ hws), ih _ hl.2⟩
      · rw [squeezeAfterPunctGo, if_neg hc, noCRC]
        exact ⟨fun hcjk hws => hl.1 hcjk (wsRun_squeeze t _ hws), ih _ hl.2⟩

theorem sq_head_normal : ∀ (l : List Char),
    (squeezeAfterPunctGo SqState.normal l).head? = l.head? := by
  intro l
  cases l <;> rfl

theorem sq_head_inRun : ∀ (l : List Char),
    (squeezeAfterPunctGo SqState.inRun l).head? = firstNonWs l := by
  intro l
  induction l with
  | nil => rfl
  | cons c t ih =>
    by_cases hc : pyIsSpace c = true
    · rw [squeezeAfterPunctGo, if_pos hc, firstNonWs, if_pos hc]
      exact ih
    · rw [squeezeAfterPunctGo, if_neg hc, firstNonWs, if_neg hc]
      rfl

theorem squeeze_noWsPunct : ∀ (l : List Char) (st : SqState),
    noWsPunct l → noWsPunct (squeezeAfterPunctGo st l) := by
  intro l
  induction l with
  | nil =>
    intro st _
    have : squeezeAfterPunctGo st [] = [] := by cases st <;> rfl
    rw [this]
    exact List.chain'_nil
  | cons c t ih =>
    intro st hl
    by_cases hc : pyIsSpace c = true
    · cases st
      · rw [squeezeAfterPunctGo]
        have hnp : isPunctMark c = false := ws_not_punct hc
        rw [hnp]
        simp only [Bool.false_eq_true, if_false]
        rw [noWsPunct, List.chain'_cons']
        refine ⟨?_, ih _ (noWsPunct_tail hl)⟩
        intro d hd hcon
        rw [sq_head_normal] at hd
        exact (List.chain'_cons'.mp hl).1 d hd hcon
      · rw [squeezeAfterPunctGo, if_pos hc, noWsPunct, List.chain'_cons']
        refine ⟨?_, ih _ (noWsPunct_tail hl)⟩
        intro d hd hcon
        rw [sq_head_inRun] at hd
        exact absurd hcon.2 (by simp [noWsPunct_fnw t c hl hc d hd])
      · rw [squeezeAfterPunctGo, if_pos hc]
        exact ih _ (noWsPunct_tail hl)
    · cases st
      · rw [squeezeAfterPunctGo, noWsPunct, List.chain'_cons']
        refine ⟨?_, ih _ (noWsPunct_tail hl)⟩
        intro d _ hcon
        exact absurd hcon.1 (by simp [bnot_true hc])
      · rw [squeezeAfterPunctGo, if_neg hc, noWsPunct, List.chain'_cons']
        refine ⟨?_, ih _ (noWsPunct_tail hl)⟩
        intro d _ hcon
        exact absurd hcon.1 (by simp [bnot_true hc])
      · rw [squeezeAfterPunctGo, if_neg hc, noWsPunct, List.chain'_cons']
        refine ⟨?_, ih _ (noWsPunct_tail hl)⟩
        intro d _ hcon
        exact absurd hcon.1 (by simp [bnot_true hc])

theorem squeeze_id : ∀ (l : List Char) (st : SqState), allBlank l → noAdjWs l →
    (st = SqState.inRun → ∀ c, l.head? = some c → pyIsSpace c = false) →
    squeezeAfterPunctGo st l = l := by
  intro l
  induction l with
  | nil => intro st _ _ _; cases st <;> rfl
  | cons c t ih =>
    intro st hab hadj hside
    have habt : allBlank t := fun d hd hdw => hab d (List.mem_cons_of_mem _ hd) hdw
    by_cases hc : pyIsSpace c = true
    · cases st
      · rw [squeezeAfterPunctGo]
        congr 1
        exact ih _ habt (noAdjWs_tail hadj) (fun hst => absurd hst (by split <;> decide))
      · rw [squeezeAfterPunctGo, if_pos hc]
        have hcsp : c = ' ' := hab c (List.mem_cons_self _ _) hc
        have hrec : squeezeAfterPunctGo SqState.inRun t = t := by
          apply ih SqState.inRun habt (noAdjWs_tail hadj)
          intro _ d hd
          cases t with
          | nil => cases hd
          | cons e t2 =>
            simp only [List.head?_cons, Option.some.injEq] at hd
            rw [← hd]
            have hpair := (List.chain'_cons.mp hadj).1
            rcases hew : pyIsSpace e with _ | _
            · rfl
            · exact absurd ⟨hc, hew⟩ hpair
        rw [hcsp, hrec]
      · exact absurd hc (by simp [hside rfl c rfl])
    · cases st
      · rw [squeezeAfterPunctGo]
        congr 1
        exact ih _ habt (noAdjWs_tail hadj) (fun hst => absurd hst (by split <;> decide))
      · rw [squeezeAfterPunctGo, if_neg hc]
        congr 1
        exact ih _ habt (noAdjWs_tail hadj) (fun hst => absurd hst (by split <;> decide))
      · rw [squeezeAfterPunctGo, if_neg hc]
        congr 1
        exact ih _ habt (noAdjWs_tail hadj) (fun hst => absurd hst (by split <;> decide))

theorem fnw_all_ws : ∀ (l : List Char), (∀ x ∈ l, pyIsSpace x = true) →
    firstNonWs l = none := by
  intro l
  induction l with
  | nil => intro _; rfl
  | cons c t ih =>
    intro h
    rw [firstNonWs, if_pos (h c (List.mem_cons_self _ _))]
    exact ih (fun x hx => h x (List.mem_cons_of_mem _ hx))

theorem fnw_append_ws : ∀ (a b : List Char), (∀ x ∈ a, pyIsSpace x = true) →
    firstNonWs (a ++ b) = firstNonWs b := by
  intro a
  induction a with
  | nil => intro b _; rfl
  | cons c t ih =>
    intro b h
    rw [List.cons_append, firstNonWs, if_pos (h c (List.mem_cons_self _ _))]
    exact ih b (fun x hx => h x (List.mem_cons_of_mem _ hx))

theorem noWsPunct_all_ws : ∀ (l : List Char), (∀ x ∈ l, pyIsSpace x = true) →
    noWsPunct l := by
  intro l
  induction l with
  | nil => intro _; exact List.chain'_nil
  | cons c t ih =>
    intro h
    rw [noWsPunct, List.chain'_cons']
    refine ⟨?_, ih (fun x hx => h x (List.mem_cons_of_mem _ hx))⟩
    intro d hd hcon
    have hdm : d ∈ t := by
      cases t with
      | nil => cases hd
      | cons e t2 =>
        simp only [List.head?_cons, Option.mem_def, Option.some.injEq] at hd
        rw [← hd]
        exact List.mem_cons_self _ _
    have := ws_not_punct (h d (List.mem_cons_of_mem _ hdm))
    rw [this] at hcon
    exact absurd hcon.2 (by simp)

theorem noCRC_all_ws : ∀ (l : List Char), (∀ x ∈ l, pyIsSpace x = true) →
    noCRC l := by
  intro l
  induction l with
  | nil => intro _; trivial
  | cons c t ih =>
    intro h
    rw [noCRC]
    refine ⟨?_, ih (fun x hx => h x (List.mem_cons_of_mem _ hx))⟩
    intro hcjk
    rw [ws_not_cjk (h c (List.mem_cons_self _ _))] at hcjk
    cases hcjk

theorem noCRC_append_ws : ∀ (a b : List Char), (∀ x ∈ a, pyIsSpace x = true) →
    noCRC b → noCRC (a ++ b) := by
  intro a
  induction a with
  | nil => intro b _ hb; exact hb
  | cons c t ih =>
    intro b h hb
    rw [List.cons_append, noCRC]
    refine ⟨?_, ih b (fun x hx => h x (List.mem_cons_of_mem _ hx)) hb⟩
    intro hcjk
    rw [ws_not_cjk (h c (List.mem_cons_self _ _))] at hcjk
    cases hcjk

theorem noWsPunct_go3 : ∀ (l pend : List Char), (∀ x ∈ pend, pyIsSpace x = true) →
    noWsPunct (dropSpaceBeforePunctGo pend l) := by
  intro l
  induction l with
  | nil => intro pend hp; exact noWsPunct_all_ws pend hp
  | cons c t ih =>
    intro pend hp
    by_cases hc : pyIsSpace c = true
    · rw [dropSpaceBeforePunctGo, if_pos hc]
      apply ih
      intro x hx
      rcases List.mem_append.mp hx with hx1 | hx2
      · exact hp x hx1
      · rw [List.mem_singleton.mp hx2]
        exact hc
    · by_cases hpc : isPunctMark c = true
      · rw [dropSpaceBeforePunctGo, if_neg hc, if_pos hpc]
        rw [noWsPunct, List.chain'_cons']
        refine ⟨?_, ih [] (by intro x hx; cases hx)⟩
        intro d _ hcon
        exact absurd hcon.1 (by simp [bnot_true hc])
      · rw [dropSpaceBeforePunctGo, if_neg hc, if_neg hpc]
        rw [noWsPunct, List.chain'_append]
        refine ⟨noWsPunct_all_ws pend hp, ?_, ?_⟩
        · rw [List.chain'_cons']
          refine ⟨?_, ih [] (by intro x hx; cases hx)⟩
          intro d _ hcon
          exact absurd hcon.1 (by simp [bnot_true hc])
        · intro x hx y hy hcon
          simp only [List.head?_cons, Option.mem_def, Option.some.injEq] at hy
          rw [← hy] at hcon
          exact absurd hcon.2 (by simp [bnot_true hpc])

theorem fnw_go3 : ∀ (l pend : List Char), (∀ x ∈ pend, pyIsSpace x = true) →
    firstNonWs (dropSpaceBeforePunctGo pend l) = firstNonWs l := by
  intro l
  induction l with
  | nil => intro pend hp; exact fnw_all_ws pend hp
  | cons c t ih =>
    intro pend hp
    by_cases hc : pyIsSpace c = true
    · rw [dropSpaceBeforePunctGo, if_pos hc, firstNonWs, if_pos hc]
      apply ih
      intro x hx
      rcases List.mem_append.mp hx with hx1 | hx2
      · exact hp x hx1
      · rw [List.mem_singleton.mp hx2]; exact hc
    · by_cases hpc : isPunctMark c = true
      · rw [dropSpaceBeforePunctGo, if_neg hc, if_pos hpc, firstNonWs, if_neg hc,
          firstNonWs, if_neg hc]
      · rw [dropSpaceBeforePunctGo, if_neg hc, if_neg hpc, fnw_append_ws _ _ hp,
          firstNonWs, if_neg hc, firstNonWs, if_neg hc]

theorem wsRun_drop : ∀ (t : List Char),
    wsRunThenCJK (dropSpaceBeforePunctGo [] t) → wsRunThenCJK t := by
  intro t h
  cases t with
  | nil => cases h
  | cons c t2 =>
    by_cases hc : pyIsSpace c = true
    · rw [wsRun_head_ws hc]
      rcases hq : dropSpaceBeforePunctGo [] (c :: t2) with _ | ⟨x, xs⟩
      · rw [hq] at h; cases h
      · rw [hq] at h
        have hxw : pyIsSpace x = true := by
          rw [wsRunThenCJK] at h
          exact h.1
        have hfq : firstNonWs (x :: xs) = firstNonWs (c :: t2) := by
          rw [← hq]
          exact fnw_go3 _ [] (by intro y hy; cases hy)
        obtain ⟨d, hd, hcjk⟩ := (wsRun_head_ws hxw).mp h
        refine ⟨d, ?_, hcjk⟩
        have h1 : firstNonWs (x :: xs) = firstNonWs xs := by rw [firstNonWs, if_pos hxw]
        have h2 : firstNonWs (c :: t2) = firstNonWs t2 := by rw [firstNonWs, if_pos hc]
        rw [← h2, ← hfq, h1]
        exact hd
    · exfalso
      rw [dropSpaceBeforePunctGo, if_neg hc] at h
      by_cases hpc : isPunctMark c = true
      · rw [if_pos hpc, wsRunThenCJK] at h
        exact absurd h.1 hc
      · rw [if_neg hpc, List.nil_append, wsRunThenCJK] at h
        exact absurd h.1 hc

theorem noCRC_go3 : ∀ (l pend : List Char), (∀ x ∈ pend, pyIsSpace x = true) →
    noCRC l → noCRC (dropSpaceBeforePunctGo pend l) := by
  intro l
  induction l with
  | nil => intro pend hp _; exact noCRC_all_ws pend hp
  | cons c t ih =>
    intro pend hp hl
    rw [noCRC] at hl
    by_cases hc : pyIsSpace c = true
    · rw [dropSpaceBeforePunctGo, if_pos hc]
      apply ih _ _ hl.2
      intro x hx
      rcases List.mem_append.mp hx with hx1 | hx2
      · exact hp x hx1
      · rw [List.mem_singleton.mp hx2]; exact hc
    · by_cases hpc : isPunctMark c = true
      · rw [dropSpaceBeforePunctGo, if_neg hc, if_pos hpc, noCRC]
        refine ⟨?_, ih [] (by intro x hx; cases hx) hl.2⟩
        intro hcjk hws
        exact hl.1 hcjk (wsRun_drop t hws)
      · rw [dropSpaceBeforePunctGo, if_neg hc, if_neg hpc]
        apply noCRC_append_ws _ _ hp
        rw [noCRC]
        refine ⟨?_, ih [] (by intro x hx; cases hx) hl.2⟩
        intro hcjk hws
        exact hl.1 hcjk (wsRun_drop t hws)

theorem go3_id : ∀ (l pend : List Char), (∀ x ∈ pend, pyIsSpace x = true) →
    noWsPunct (pend ++ l) → dropSpaceBeforePunctGo pend l = pend ++ l := by
  intro l
  induction l with
  | nil => intro pend _ _; rw [dropSpaceBeforePunctGo, List.append_nil]
  | cons c t ih =>
    intro pend hp hl
    by_cases hc : pyIsSpace c = true
    · rw [dropSpaceBeforePunctGo, if_pos hc]
      have := ih (pend ++ [c]) (by
        intro x hx
        rcases List.mem_append.mp hx with hx1 | hx2
        · exact hp x hx1
        · rw [List.mem_singleton.mp hx2]; exact hc)
        (by rw [List.append_assoc, List.singleton_append]; exact hl)
      rw [this, List.append_assoc, List.singleton_append]
    · by_cases hpc : isPunctMark c = true
      · cases pend with
        | nil =>
          rw [dropSpaceBeforePunctGo, if_neg hc, if_pos hpc, List.nil_append]
          rw [List.nil_append] at hl
          congr 1
          have hrec := ih [] (by intro x hx; cases hx)
            (by rw [List.nil_append]; exact noWsPunct_tail hl)
          rw [List.nil_append] at hrec
          exact hrec
        | cons p ps =>
          exfalso
          rw [List.cons_append] at hl
          have hconn := (List.chain'_append.mp (by
            rw [← List.cons_append] at hl
            exact (hl : List.Chain' _ ((p :: ps) ++ c :: t)))).2.2
          have hlast : (p :: ps).getLast? = some ((p :: ps).getLast (by simp)) :=
            List.getLast?_eq_getLast _ (by simp)
          have hlw : pyIsSpace ((p :: ps).getLast (by simp)) = true :=
            hp _ (List.getLast_mem _)
          exact hconn _ (by rw [hlast]; rfl) c rfl ⟨hlw, hpc⟩
      · rw [dropSpaceBeforePunctGo, if_neg hc, if_neg hpc]
        congr 1
        congr 1
        have hrec := ih [] (by intro x hx; cases hx)
          (by
            rw [List.nil_append]
            exact noWsPunct_tail ((List.Chain'.suffix hl ⟨pend, rfl⟩ : List.Chain' _ (c :: t))))
        rw [List.nil_append] at hrec
        exact hrec

theorem go2_safe : ∀ (t pend : List Char), (∀ x ∈ pend, pyIsSpace x = true) →
    ¬ wsRunThenCJK (despaceCJKGo true pend t) := by
  intro t
  induction t with
  | nil =>
    intro pend hp h
    rw [despaceCJKGo] at h
    cases pend with
    | nil => cases h
    | cons p ps =>
      rw [wsRunThenCJK] at h
      rw [fnw_all_ws ps (fun x hx => hp x (List.mem_cons_of_mem _ hx))] at h
      exact h.2
  | cons c t2 ih =>
    intro pend hp h
    by_cases hc : pyIsSpace c = true
    · rw [despaceCJKGo, if_pos hc] at h
      exact ih (pend ++ [c]) (by
        intro x hx
        rcases List.mem_append.mp hx with hx1 | hx2
        · exact hp x hx1
        · rw [List.mem_singleton.mp hx2]; exact hc) h
    · rw [despaceCJKGo, if_neg hc] at h
      by_cases hb : (true && isCJK c && !pend.isEmpty) = true
      · rw [if_pos hb, wsRunThenCJK] at h
        exact absurd h.1 hc
      · rw [if_neg hb] at h
        cases pend with
        | nil =>
          rw [List.nil_append, wsRunThenCJK] at h
          exact absurd h.1 hc
        | cons p ps =>
          have hcjk : isCJK c = false := by
            rcases hcd : isCJK c with _ | _
            · rfl
            · exact absurd (by simp [hcd]) hb
          rw [List.cons_append, wsRunThenCJK] at h
          have hfnw : firstNonWs (ps ++ c :: despaceCJKGo (isCJK c) [] t2) = some c := by
            rw [fnw_append_ws ps _ (fun x hx => hp x (List.mem_cons_of_mem _ hx)),
              firstNonWs, if_neg hc]
          rw [hfnw] at h
          exact absurd h.2 (by simp [hcjk])

theorem noCRC_go2 : ∀ (l : List Char) (prevCJK : Bool) (pend : List Char),
    (∀ x ∈ pend, pyIsSpace x = true) → noCRC (despaceCJKGo prevCJK pend l) := by
  intro l
  induction l with
  | nil =>
    intro prevCJK pend hp
    rw [despaceCJKGo]
    exact noCRC_all_ws pend hp
  | cons c t ih =>
    intro prevCJK pend hp
    by_cases hc : pyIsSpace c = true
    · rw [despaceCJKGo, if_pos hc]
      exact ih prevCJK (pend ++ [c]) (by
        intro x hx
        rcases List.mem_append.mp hx with hx1 | hx2
        · exact hp x hx1
        · rw [List.mem_singleton.mp hx2]; exact hc)
    · rw [despaceCJKGo, if_neg hc]
      by_cases hb : (prevCJK && isCJK c && !pend.isEmpty) = true
      · rw [if_pos hb, noCRC]
        refine ⟨?_, ih (isCJK c) [] (by intro x hx; cases hx)⟩
        intro hcjk hws
        rw [hcjk] at hws
        exact go2_safe t [] (by intro x hx; cases hx) hws
      · rw [if_neg hb]
        apply noCRC_append_ws _ _ hp
        rw [noCRC]
        refine ⟨?_, ih (isCJK c) [] (by intro x hx; cases hx)⟩
        intro hcjk hws
        rw [hcjk] at hws
        exact go2_safe t [] (by intro x hx; cases hx) hws

theorem go2_id : ∀ (l pend : List Char) (prevCJK : Bool),
    (∀ x ∈ pend, pyIsSpace x = true) → noCRC l →
    (prevCJK = true → pend = [] → ¬ wsRunThenCJK l) →
    (prevCJK = true → pend ≠ [] → ∀ d, firstNonWs l = some d → isCJK d = false) →
    despaceCJKGo prevCJK pend l = pend ++ l := by
  intro l
  induction l with
  | nil => intro pend prevCJK _ _ _ _; rw [despaceCJKGo, List.append_nil]
  | cons c t ih =>
    intro pend prevCJK hp hl h1 h2
    rw [noCRC] at hl
    by_cases hc : pyIsSpace c = true
    · rw [despaceCJKGo, if_pos hc]
      have hrec := ih (pend ++ [c]) prevCJK
        (by
          intro x hx
          rcases List.mem_append.mp hx with hx1 | hx2
          · exact hp x hx1
          · rw [List.mem_singleton.mp hx2]; exact hc)
        hl.2
        (by intro _ habs; exact absurd habs (by simp))
        (by
          intro hpc _ d hd
          by_cases hpe : pend = []
          · rcases hcd : isCJK d with _ | _
            · rfl
            · exact absurd ((wsRun_head_ws hc).mpr ⟨d, hd, hcd⟩) (h1 hpc hpe)
          · exact h2 hpc hpe d (by rw [firstNonWs, if_pos hc]; exact hd))
      rw [hrec, List.append_assoc, List.singleton_append]
    · rw [despaceCJKGo, if_neg hc]
      have hb : ¬ (prevCJK && isCJK c && !pend.isEmpty) = true := by
        intro hb
        simp only [Bool.and_eq_true, Bool.not_eq_true'] at hb
        have hpne : pend ≠ [] := by
          intro hpe
          rw [hpe] at hb
          simp at hb
        have := h2 hb.1.1 hpne c (by rw [firstNonWs, if_neg hc])
        rw [this] at hb
        exact absurd hb.1.2 (by simp)
      rw [if_neg hb]
      congr 1
      congr 1
      have hrec := ih [] (isCJK c)
        (by intro x hx; cases hx)
        hl.2
        (fun hcjk _ => hl.1 hcjk)
        (fun _ habs => absurd rfl habs)
      rw [List.nil_append] at hrec
      exact hrec

theorem mem_go2 : ∀ (l : List Char) (prevCJK : Bool) (pend : List Char) (x : Char),
    x ∈ despaceCJKGo prevCJK pend l → x ∈ pend ∨ x ∈ l := by
  intro l
  induction l with
  | nil =>
    intro prevCJK pend x hx
    rw [despaceCJKGo] at hx
    exact Or.inl hx
  | cons c t ih =>
    intro prevCJK pend x hx
    by_cases hc : pyIsSpace c = true
    · rw [despaceCJKGo, if_pos hc] at hx
      rcases ih _ _ _ hx with h1 | h2
      · rcases List.mem_append.mp h1 with h3 | h4
        · exact Or.inl h3
        · exact Or.inr (by rw [List.mem_singleton.mp h4]; exact List.mem_cons_self _ _)
      · exact Or.inr (List.mem_cons_of_mem _ h2)
    · rw [despaceCJKGo, if_neg hc] at hx
      by_cases hb : (prevCJK && isCJK c && !pend.isEmpty) = true
      · rw [if_pos hb] at hx
        rcases List.mem_cons.mp hx with rfl | h2
        · exact Or.inr (List.mem_cons_self _ _)
        · rcases ih _ _ _ h2 with h3 | h4
          · cases h3
          · exact Or.inr (List.mem_cons_of_mem _ h4)
      · rw [if_neg hb] at hx
        rcases List.mem_append.mp hx with h1 | h2
        · exact Or.inl h1
        · rcases List.mem_cons.mp h2 with rfl | h3
          · exact Or.inr (List.mem_cons_self _ _)
          · rcases ih _ _ _ h3 with h4 | h5
            · cases h4
            · exact Or.inr (List.mem_cons_of_mem _ h5)

theorem mem_go3 : ∀ (l pend : List Char) (x : Char),
    x ∈ dropSpaceBeforePunctGo pend l → x ∈ pend ∨ x ∈ l := by
  intro l
  induction l with
  | nil =>
    intro pend x hx
    rw [dropSpaceBeforePunctGo] at hx
    exact Or.inl hx
  | cons c t ih =>
    intro pend x hx
    by_cases hc : pyIsSpace c = true
    · rw [dropSpaceBeforePunctGo, if_pos hc] at hx
      rcases ih _ _ hx with h1 | h2
      · rcases List.mem_append.mp h1 with h3 | h4
        · exact Or.inl h3
        · exact Or.inr (by rw [List.mem_singleton.mp h4]; exact List.mem_cons_self _ _)
      · exact Or.inr (List.mem_cons_of_mem _ h2)
    · by_cases hpc : isPunctMark c = true
      · rw [dropSpaceBeforePunctGo, if_neg hc, if_pos hpc] at hx
        rcases List.mem_cons.mp hx with rfl | h2
        · exact Or.inr (List.mem_cons_self _ _)
        · rcases ih _ _ h2 with h3 | h4
          · cases h3
          · exact Or.inr (List.mem_cons_of_mem _ h4)
      · rw [dropSpaceBeforePunctGo, if_neg hc, if_neg hpc] at hx
        rcases List.mem_append.mp hx with h1 | h2
        · exact Or.inl h1
        · rcases List.mem_cons.mp h2 with rfl | h3
          · exact Or.inr (List.mem_cons_self _ _)
          · rcases ih _ _ h3 with h4 | h5
            · cases h4
            · exact Or.inr (List.mem_cons_of_mem _ h5)

theorem mem_go4 : ∀ (l : List Char) (st : SqState) (x : Char),
    x ∈ squeezeAfterPunctGo st l → x ∈ l ∨ x = ' ' := by
  intro l
  induction l with
  | nil =>
    intro st x hx
    have : squeezeAfterPunctGo st [] = [] := by cases st <;> rfl
    rw [this] at hx
    cases hx
  | cons c t ih =>
    intro st x hx
    have hcons : ∀ (st2 : SqState), x ∈ c :: squeezeAfterPunctGo st2 t → x ∈ c :: t ∨ x = ' ' := by
      intro st2 hx2
      rcases List.mem_cons.mp hx2 with rfl | h2
      · exact Or.inl (List.mem_cons_self _ _)
      · rcases ih st2 x h2 with h3 | h4
        · exact Or.inl (List.mem_cons_of_mem _ h3)
        · exact Or.inr h4
    cases st
    · rw [squeezeAfterPunctGo] at hx
      exact hcons _ hx
    · by_cases hc : pyIsSpace c = true
      · rw [squeezeAfterPunctGo, if_pos hc] at hx
        rcases List.mem_cons.mp hx with rfl | h2
        · exact Or.inr rfl
        · rcases ih SqState.inRun x h2 with h3 | h4
          · exact Or.inl (List.mem_cons_of_mem _ h3)
          · exact Or.inr h4
      · rw [squeezeAfterPunctGo, if_neg hc] at hx
        exact hcons _ hx
    · by_cases hc : pyIsSpace c = true
      · rw [squeezeAfterPunctGo, if_pos hc] at hx
        rcases ih SqState.inRun x hx with h3 | h4
        · exact Or.inl (List.mem_cons_of_mem _ h3)
        · exact Or.inr h4
      · rw [squeezeAfterPunctGo, if_neg hc] at hx
        exact hcons _ hx

theorem mem_strip : ∀ (l : List Char) (x : Char), x ∈ pyStrip l → x ∈ l := by
  intro l x hx
  obtain ⟨pre, post, hdec, _, _⟩ := pyStrip_decomp l
  rw [hdec]
  exact List.mem_append.mpr (Or.inl (List.mem_append.mpr (Or.inr hx)))

theorem mem_go6 : ∀ (l : List Char) (b : Bool) (x : Char),
    x ∈ collapseSpaceGo b l → x ∈ l ∨ x = ' ' := by
  intro l
  induction l with
  | nil =>
    intro b x hx
    have : collapseSpaceGo b [] = [] := by cases b <;> rfl
    rw [this] at hx
    cases hx
  | cons c t ih =>
    intro b x hx
    by_cases hc : pyIsSpace c = true
    · rw [collapseSpaceGo, if_pos hc] at hx
      cases b
      · rw [if_neg (by decide)] at hx
        rcases List.mem_cons.mp hx with rfl | h2
        · exact Or.inr rfl
        · rcases ih true x h2 with h3 | h4
          · exact Or.inl (List.mem_cons_of_mem _ h3)
          · exact Or.inr h4
      · rw [if_pos rfl] at hx
        rcases ih true x hx with h3 | h4
        · exact Or.inl (List.mem_cons_of_mem _ h3)
        · exact Or.inr h4
    · rw [collapseSpaceGo, if_neg hc] at hx
      rcases List.mem_cons.mp hx with rfl | h2
      · exact Or.inl (List.mem_cons_self _ _)
      · rcases ih false x h2 with h3 | h4
        · exact Or.inl (List.mem_cons_of_mem _ h3)
        · exact Or.inr h4

theorem mem_cleanSpacing : ∀ (l : List Char) (x : Char),
    x ∈ cleanSpacing l → x ∈ l ∨ x = ' ' := by
  intro l x hx
  rw [cleanSpacing, collapseSpace] at hx
  rcases mem_go6 _ _ _ hx with h1 | h4
  · have h2 := mem_strip _ _ h1
    rw [squeezeAfterPunct] at h2
    rcases mem_go4 _ _ _ h2 with h3 | h4
    · rw [dropSpaceBeforePunct] at h3
      rcases mem_go3 _ _ _ h3 with h5 | h6
      · cases h5
      · rw [despaceCJK] at h6
        rcases mem_go2 _ _ _ _ h6 with h7 | h8
        · cases h7
        · exact Or.inl h8
    · exact Or.inr h4
  · exact Or.inr h4

theorem hasBackslashU_mem : ∀ (l : List Char), hasBackslashU l = true → '\\' ∈ l := by
  intro l
  induction l with
  | nil => intro h; cases h
  | cons a t ih =>
    intro h
    cases t with
    | nil => cases h
    | cons b t2 =>
      rw [hasBackslashU] at h
      simp only [Bool.or_eq_true, Bool.and_eq_true, beq_iff_eq] at h
      rcases h with ⟨h1, _⟩ | h2
      · have ha : a = '\\' := h1
        rw [ha]
        exact List.mem_cons_self _ _
      · exact List.mem_cons_of_mem _ (ih h2)

theorem cleanSpacing_NF (l : List Char) : spacingNF (cleanSpacing l) := by
  have hnwp : noWsPunct (pyStrip (squeezeAfterPunct (dropSpaceBeforePunct (despaceCJK l)))) := by
    apply strip_noWsPunct
    rw [squeezeAfterPunct]
    apply squeeze_noWsPunct
    rw [dropSpaceBeforePunct]
    exact noWsPunct_go3 _ [] (by intro x hx; cases hx)
  have hncrc : noCRC (pyStrip (squeezeAfterPunct (dropSpaceBeforePunct (despaceCJK l)))) := by
    apply strip_noCRC
    rw [squeezeAfterPunct]
    apply squeeze_noCRC
    rw [dropSpaceBeforePunct]
    apply noCRC_go3 _ [] (by intro x hx; cases hx)
    rw [despaceCJK]
    exact noCRC_go2 _ false [] (by intro x hx; cases hx)
  refine ⟨?_, ?_, ?_, ?_, ?_⟩
  · rw [cleanSpacing, collapseSpace]
    exact (collapse_blank_adj _ false).1
  · rw [cleanSpacing, collapseSpace]
    exact (collapse_blank_adj _ false).2
  · rw [cleanSpacing]
    exact collapse_noEdgeWs _ (strip_noEdgeWs _)
  · rw [cleanSpacing, collapseSpace]
    exact collapse_noWsPunct _ false hnwp
  · rw [cleanSpacing, collapseSpace]
    exact collapse_noCRC _ false hncrc

theorem cleanSpacing_id (l : List Char) (h : spacingNF l) : cleanSpacing l = l := by
  obtain ⟨hab, hadj, hedge, hwsp, hcrc⟩ := h
  rw [cleanSpacing]
  rw [despaceCJK, go2_id l [] false (by intro x hx; cases hx) hcrc
    (by intro hx; cases hx) (by intro hx; cases hx), List.nil_append]
  rw [dropSpaceBeforePunct, go3_id l [] (by intro x hx; cases hx)
    (by rw [List.nil_append]; exact hwsp), List.nil_append]
  rw [squeezeAfterPunct, squeeze_id l SqState.normal hab hadj (by intro hx; cases hx)]
  rw [strip_id l hedge]
  rw [collapseSpace, collapse_id l false hab hadj (by intro hx; cases hx)]

theorem cleanSpacing_idem (l : List Char) : cleanSpacing (cleanSpacing l) = cleanSpacing l :=
  cleanSpacing_id _ (cleanSpacing_NF l)

theorem hasBackslashU_false_of_no_bs (l : List Char) (h : '\\' ∉ l) :
    hasBackslashU l = false := by
  rcases hb : hasBackslashU l with _ | _
  · rfl
  · exact absurd (hasBackslashU_mem l hb) h

/-- C7 counterexample: on the input `"\\\\u0041"` (backslash, backslash,
`u0041`) the first application decodes the escaped backslash to
`"\\u0041"`, and the second application then decodes `\\u0041` to `"A"`:
the normalizer is not idempotent on every string. -/
theorem c7_counterexample :
    clean_chinese_text (clean_chinese_text "\\\\u0041") ≠ clean_chinese_text "\\\\u0041" := by
  decide

/-- C7 (amended): on every string that contains no backslash the
unicode-escape phase is skipped on both applications, and the spacing
pipeline is idempotent — its output is in spacing normal form and the
pipeline is the identity on that normal form — so the Chinese text
normalizer applied twice equals the normalizer applied once. -/
theorem c7_amended : ∀ (s : String), (∀ c ∈ s.data, c ≠ '\\') →
    clean_chinese_text (clean_chinese_text s) = clean_chinese_text s := by
  intro s hs
  have h1 : hasBackslashU s.data = false :=
    hasBackslashU_false_of_no_bs s.data (fun hmem => hs '\\' hmem rfl)
  have e1 : clean_chinese_text s = String.mk (cleanSpacing s.data) := by
    simp only [clean_chinese_text, h1, Bool.false_eq_true, if_false]
  rw [e1]
  have h2 : hasBackslashU (String.mk (cleanSpacing s.data)).data = false := by
    show hasBackslashU (cleanSpacing s.data) = false
    apply hasBackslashU_false_of_no_bs
    intro hmem
    rcases mem_cleanSpacing s.data '\\' hmem with hin | hsp
    · exact hs '\\' hin rfl
    · exact absurd hsp (by decide)
  simp only [clean_chinese_text, h2, Bool.false_eq_true, if_false]
  show String.mk (cleanSpacing (cleanSpacing s.data)) = String.mk (cleanSpacing s.data)
  rw [cleanSpacing_idem]

/-- Witness for `c7_amended` at the backslash-free string
`"你好  ，世界"`. -/
theorem c7_amended_witness :
    (∀ c ∈ ("你好  ，世界" : String).data, c ≠ '\\') ∧
    clean_chinese_text (clean_chinese_text "你好  ，世界") = clean_chinese_text "你好  ，世界" :=
  ⟨by decide, c7_amended _ (by decide)⟩

